import Mathlib

/-!
Shallow embedding of the flow-execution core of the avy repository:

* `src/lib/execution/engine.ts` — the scheduler (`executeFlow`,
  `executeNodeAndContinue`, `executeNode`, `findStartNode`,
  `getOutgoingEdges`, `getTargetNode`);
* `src/lib/execution/pending-input-registry.ts` — the pending-input
  registry (`waitForInput`, `resolveInput`, `isWaiting`, `clear`);
* the execution-state projector (`useFlowExecution`:
  `updateNodeExecutionState`, `addPreviewEntry`, `updatePreviewEntry`).

Modelling conventions.  The `fetch("/api/execute", ...)` network call is an
oracle parameter mapping the request-body fields (prompt, model, input,
context) to the parsed JSON response; the count of oracle invocations is
threaded through the run state so that statements about "network calls
issued" can be made.  Promises are sequentialized: the engine's
`Promise.all` fan-out is replaced by processing the outgoing edges in
order (`runOutgoing`); every property proved below is insensitive to the
interleaving order of sibling branches (event counts, event membership,
error origins), or is instantiated on graphs where the event-loop order
of the source coincides with the sequential order.  JavaScript string
truthiness (`x || d`) is modelled by `jsOr` / `jsTruthy`, with `""` and
`undefined` falsy.  The registry's promises are modelled by unique
promise ids allocated from a counter, and "resolving promise p with v"
is recorded by appending `(p, v)` to a settlement log.
-/

namespace Avy

/-! ## Data model: nodes, edges, execution state -/

/-- A graph node as the engine reads it: `id`, optional `type` tag, and the
two `data` fields the engine consults (`data.prompt` when it is a string,
`data.model`). -/
structure JNode where
  id : String
  type : Option String
  promptData : Option String
  modelData : Option String
deriving DecidableEq, Repr

/-- A graph edge: `id`, `source` node id, `target` node id. -/
structure JEdge where
  id : String
  source : String
  target : String
deriving DecidableEq, Repr

/-- The node lifecycle events emitted through `onNodeStateChange`:
`{status:"running"}`, `{status:"success", output}`, `{status:"error", error}`. -/
inductive EvStatus where
  | running
  | success (output : String)
  | error (msg : String)
deriving DecidableEq, Repr

/-- The parsed JSON response of the `/api/execute` call, restricted to the
fields the engine reads: `response.ok`, `data.error`, `data.output`. -/
structure FetchResponse where
  ok : Bool
  error : Option String
  output : String
deriving DecidableEq, Repr

/-- Oracle standing for the `fetch("/api/execute", ...)` network call: it
receives the request-body fields (prompt, model, input, context) and
yields the parsed response. -/
def FetchOracle : Type :=
  String → String → String → List (String × String) → FetchResponse

/-- JavaScript `x || d` on an optional string: `undefined` and `""` are falsy. -/
def jsOr (x : Option String) (d : String) : String :=
  match x with
  | some s => if s = "" then d else s
  | none => d

/-- JavaScript truthiness of an optional string. -/
def jsTruthy (x : Option String) : Bool :=
  match x with
  | some s => !(s == "")
  | none => false

/-- Key update on an insertion-ordered association list, with JavaScript
object/Map semantics: an existing key keeps its position and gets the new
value, a fresh key is appended. -/
def setKey (k v : String) (m : List (String × String)) : List (String × String) :=
  if m.any (fun kv => kv.1 == k) then
    m.map (fun kv => if kv.1 == k then (k, v) else kv)
  else m ++ [(k, v)]

/-- The mutable state threaded through one `executeFlow` run: the
`context` record (seeded with `userInput`), the captured terminal
`outputs` list, the chronological list of `onNodeStateChange` events, and
the number of network calls issued so far. -/
structure RunState where
  context : List (String × String)
  outputs : List String
  events : List (String × EvStatus)
  netCalls : Nat
deriving DecidableEq, Repr

/-! ## The engine (src/lib/execution/engine.ts) -/

/-- `findStartNode`: the first node whose `type` is `"input"`. -/
def findStartNode (nodes : List JNode) : Option JNode :=
  nodes.find? (fun n => n.type == some "input")

/-- `getOutgoingEdges`: all edges whose source is the given node id. -/
def getOutgoingEdges (nodeId : String) (edges : List JEdge) : List JEdge :=
  edges.filter (fun e => e.source == nodeId)

/-- `getTargetNode`: the first node whose id is the edge's target. -/
def getTargetNode (edge : JEdge) (nodes : List JNode) : Option JNode :=
  nodes.find? (fun n => n.id == edge.target)

/-- `executeNode`: run a single node.  `input`/`output` nodes pass their
input through; a `prompt` node posts to `/api/execute` (the oracle) and
either returns `data.output` or throws `data.error || "Failed to execute
prompt"`; every other type passes its input through.  The second
component counts the network calls made (1 for a `prompt` node, 0
otherwise). -/
def executeNode (fetch : FetchOracle) (node : JNode) (input : String)
    (context : List (String × String)) : Except String String × Nat :=
  match node.type with
  | some "input" => (.ok input, 0)
  | some "output" => (.ok input, 0)
  | some "prompt" =>
      let prompt := node.promptData.getD ""
      let model := jsOr node.modelData "gpt-5.2-2025-12-11"
      let resp := fetch prompt model input context
      if resp.ok then (.ok resp.output, 1)
      else (.error (jsOr resp.error "Failed to execute prompt"), 1)
  | _ => (.ok input, 0)

/-- `executeNodeAndContinue`: emit `running`, execute the node; on error
emit an `error` event for this node only and stop this branch; on success
write the output into the context, emit `success`, capture the output and
stop if this is an `output` node, otherwise walk every outgoing edge
(the `Promise.all` fan-out, sequentialized into a fold).  Recursion is
bounded by `fuel` (the source recurses without a bound and so diverges on
cyclic graphs; every claim below concerns acyclic graphs, where some
finite fuel suffices). -/
def executeNodeAndContinue (fetch : FetchOracle) (nodes : List JNode)
    (edges : List JEdge) : Nat → JNode → String → RunState → RunState
  | 0, _, _, s => s
  | fuel + 1, node, input, s =>
    let s1 : RunState := { s with events := s.events ++ [(node.id, .running)] }
    match executeNode fetch node input s1.context with
    | (.error msg, n) =>
        { s1 with
          netCalls := s1.netCalls + n,
          events := s1.events ++ [(node.id, .error msg)] }
    | (.ok out, n) =>
        let s2 : RunState :=
          { s1 with
            netCalls := s1.netCalls + n,
            context := setKey node.id out s1.context,
            events := s1.events ++ [(node.id, .success out)] }
        if node.type == some "output" then
          { s2 with outputs := s2.outputs ++ [out] }
        else
          (getOutgoingEdges node.id edges).foldl
            (fun acc e =>
              match getTargetNode e nodes with
              | some t => executeNodeAndContinue fetch nodes edges fuel t out acc
              | none => acc) s2

/-- The walk of a list of outgoing edges: recurse into each resolvable
target in order.  `executeNodeAndContinue` performs exactly this fold on
the outgoing edges of a successful non-`output` node. -/
def runOutgoing (fetch : FetchOracle) (nodes : List JNode)
    (edges : List JEdge) (fuel : Nat) (l : List JEdge) (out : String)
    (s : RunState) : RunState :=
  l.foldl
    (fun acc e =>
      match getTargetNode e nodes with
      | some t => executeNodeAndContinue fetch nodes edges fuel t out acc
      | none => acc) s

theorem runOutgoing_nil {fetch : FetchOracle} {nodes : List JNode}
    {edges : List JEdge} {fuel : Nat} {out : String} {s : RunState} :
    runOutgoing fetch nodes edges fuel [] out s = s := rfl

theorem runOutgoing_cons {fetch : FetchOracle} {nodes : List JNode}
    {edges : List JEdge} {fuel : Nat} {e : JEdge} {rest : List JEdge}
    {out : String} {s : RunState} :
    runOutgoing fetch nodes edges fuel (e :: rest) out s =
      runOutgoing fetch nodes edges fuel rest out
        (match getTargetNode e nodes with
         | some t => executeNodeAndContinue fetch nodes edges fuel t out s
         | none => s) := rfl

/-- The run state observable when `executeFlow` throws before doing any
work: no context entry written, no output captured, no event emitted, no
network call issued. -/
def emptyRunState : RunState :=
  { context := [], outputs := [], events := [], netCalls := 0 }

/-- The run state at the start of `executeFlow`: the context seeded with
`userInput`, nothing else. -/
def zeroState (userInput : String) : RunState :=
  { context := [("userInput", userInput)], outputs := [], events := [],
    netCalls := 0 }

/-- `executeFlow`: find the start node (throwing `"No input node found"`
when there is none), run `executeNodeAndContinue` from it, and return
`outputs[outputs.length - 1] || ""` — a single scalar.  The pair also
exposes the final run state so that properties of the events, outputs,
context and network-call count can be stated. -/
def executeFlow (fetch : FetchOracle) (nodes : List JNode) (edges : List JEdge)
    (userInput : String) (fuel : Nat) : Except String String × RunState :=
  match findStartNode nodes with
  | none => (.error "No input node found", emptyRunState)
  | some startNode =>
      let s := executeNodeAndContinue fetch nodes edges fuel startNode
        userInput (zeroState userInput)
      (.ok (s.outputs.getLastD ""), s)

/-! ## Pending-input registry (src/lib/execution/pending-input-registry.ts)

The module-level `Map` of node id to resolver is the `pending` association
list; each created promise gets a fresh id from the `nextP` counter, and a
promise resolution `resolve(v)` is recorded by appending `(p, v)` to the
`settled` log (`none` standing for the `null` cancel sentinel). -/

/-- State of the pending-input registry together with the settlement log of
the promises it has handed out. -/
structure RegState where
  pending : List (String × Nat)
  nextP : Nat
  settled : List (Nat × Option String)
deriving DecidableEq, Repr

/-- Lookup in the pending map (`pendingInputs.get`). -/
def regLookup (nodeId : String) (m : List (String × Nat)) : Option Nat :=
  (m.find? (fun kv => kv.1 == nodeId)).map (·.2)

/-- `pendingInputs.set`: an existing key keeps its position and gets the new
resolver, a fresh key is appended (JavaScript `Map` insertion order). -/
def regSet (nodeId : String) (p : Nat) (m : List (String × Nat)) :
    List (String × Nat) :=
  if m.any (fun kv => kv.1 == nodeId) then
    m.map (fun kv => if kv.1 == nodeId then (nodeId, p) else kv)
  else m ++ [(nodeId, p)]

/-- `pendingInputs.delete`. -/
def regErase (nodeId : String) (m : List (String × Nat)) :
    List (String × Nat) :=
  m.filter (fun kv => !(kv.1 == nodeId))

/-- How many times promise `p` occurs in the settlement log. -/
def countSettled (p : Nat) (settled : List (Nat × Option String)) : Nat :=
  (settled.filter (fun q => q.1 == p)).length

namespace PendingInputRegistry

/-- `waitForInput(nodeId)`: create a fresh promise and store its resolver
under `nodeId`, overwriting any resolver already stored there.  Returns
the promise id and the new state. -/
def waitForInput (nodeId : String) (s : RegState) : Nat × RegState :=
  (s.nextP,
   { pending := regSet nodeId s.nextP s.pending,
     nextP := s.nextP + 1,
     settled := s.settled })

/-- `resolveInput(nodeId, data)`: if a resolver is registered under
`nodeId`, resolve its promise with `data` and delete the registration;
otherwise do nothing. -/
def resolveInput (nodeId : String) (data : String) (s : RegState) : RegState :=
  match regLookup nodeId s.pending with
  | some p =>
      { s with
        settled := s.settled ++ [(p, some data)],
        pending := regErase nodeId s.pending }
  | none => s

/-- `isWaiting(nodeId)`. -/
def isWaiting (nodeId : String) (s : RegState) : Bool :=
  s.pending.any (fun kv => kv.1 == nodeId)

/-- `clear()`: resolve every outstanding promise with `null` (in map
iteration order) and empty the registry. -/
def clear (s : RegState) : RegState :=
  { pending := [],
    nextP := s.nextP,
    settled := s.settled ++ s.pending.map (fun kv => (kv.2, (none : Option String))) }

end PendingInputRegistry

/-- An arbitrary client interaction with the registry, used to state what
can ever happen to a promise over any continuation of a run. -/
inductive RegOp where
  | wait (nodeId : String)
  | deliver (nodeId : String) (data : String)
  | clearAll
deriving DecidableEq, Repr

/-- Apply one registry interaction. -/
def applyRegOp (s : RegState) (op : RegOp) : RegState :=
  match op with
  | .wait nodeId => (PendingInputRegistry.waitForInput nodeId s).2
  | .deliver nodeId data => PendingInputRegistry.resolveInput nodeId data s
  | .clearAll => PendingInputRegistry.clear s

/-- Apply a sequence of registry interactions. -/
def applyRegOps (ops : List RegOp) (s : RegState) : RegState :=
  ops.foldl applyRegOp s

/-- Well-formedness of a registry state: every promise id ever handed out
(pending or settled) is below the allocation counter. -/
def RegWF (s : RegState) : Prop :=
  (∀ kv ∈ s.pending, kv.2 < s.nextP) ∧ (∀ q ∈ s.settled, q.1 < s.nextP)

/-! ## Execution-state projector (useFlowExecution) -/

/-- The `ExecutionStatus` string union. -/
inductive ExecutionStatus where
  | pending
  | running
  | success
  | error
deriving DecidableEq, Repr

/-- A `NodeExecutionState` record as consumed by
`updateNodeExecutionState`: a status plus optional output, error and
source-type fields (absent = `undefined`). -/
structure NodeExecState where
  status : ExecutionStatus
  output : Option String
  error : Option String
  sourceType : Option String
deriving DecidableEq, Repr

/-- A node as the projector sees it: id, type and label, plus the
execution fields `updateNodeExecutionState` writes into `data`. -/
structure PNode where
  id : String
  type : Option String
  label : Option String
  executionStatus : Option ExecutionStatus
  executionOutput : Option String
  executionError : Option String
deriving DecidableEq, Repr

/-- A `PreviewEntry` of the terminal-output log. -/
structure PreviewEntry where
  id : String
  nodeId : String
  nodeLabel : String
  nodeType : String
  status : ExecutionStatus
  output : Option String
  error : Option String
  timestamp : Nat
  sourceType : Option String
deriving DecidableEq, Repr

/-- A `Partial<PreviewEntry>` as passed to `updatePreviewEntry`: for each
field, `none` means the key is absent and `some v` means the key is
present with value `v` (`v` itself optional for the optional fields,
since a present key may carry `undefined`). -/
structure PreviewUpdates where
  status : Option ExecutionStatus := none
  output : Option (Option String) := none
  error : Option (Option String) := none
  sourceType : Option (Option String) := none
deriving DecidableEq, Repr

/-- Object spread `{ ...entry, ...updates }`. -/
def applyUpdates (e : PreviewEntry) (u : PreviewUpdates) : PreviewEntry :=
  { e with
    status := u.status.getD e.status,
    output := u.output.getD e.output,
    error := u.error.getD e.error,
    sourceType := u.sourceType.getD e.sourceType }

/-- The projector's state: the nodes array, the ordered preview-entry log,
the `addedPreviewIds` dedupe set (as an insertion-ordered list), and a
clock standing for `Date.now()` (advanced at each entry creation, which
also keeps generated entry ids unique). -/
structure ProjState where
  nodes : List PNode
  previewEntries : List PreviewEntry
  addedPreviewIds : List String
  now : Nat
deriving DecidableEq, Repr

/-- The projector's state at the start of a run (after `resetExecution`). -/
def initProj (nodes : List PNode) : ProjState :=
  { nodes := nodes, previewEntries := [], addedPreviewIds := [], now := 0 }

/-- `addPreviewEntry`: append a new entry with a generated id and
timestamp. -/
def addPreviewEntry (s : ProjState) (nodeId nodeLabel nodeType : String)
    (status : ExecutionStatus) (sourceType : Option String) : ProjState :=
  { s with
    previewEntries := s.previewEntries ++
      [{ id := nodeId ++ "-" ++ toString s.now,
         nodeId := nodeId,
         nodeLabel := nodeLabel,
         nodeType := nodeType,
         status := status,
         output := none,
         error := none,
         timestamp := s.now,
         sourceType := sourceType }],
    now := s.now + 1 }

/-- `updatePreviewEntry`: merge the updates into every entry whose
`nodeId` matches. -/
def updatePreviewEntry (s : ProjState) (nodeId : String)
    (u : PreviewUpdates) : ProjState :=
  { s with
    previewEntries := s.previewEntries.map
      (fun e => if e.nodeId == nodeId then applyUpdates e u else e) }

/-- The node-data write of `updateNodeExecutionState`: copy the event's
status, output and error into the matching node's execution fields. -/
def applyExecUpd (nodeId : String) (st : NodeExecState) (n : PNode) : PNode :=
  if n.id == nodeId then
    { n with
      executionStatus := some st.status,
      executionOutput := st.output,
      executionError := st.error }
  else n

/-- `updateNodeExecutionState`: write the execution fields into the node's
`data`; then, when the node is an `output` node, maintain the preview
log — on a `running` event add a log entry unless one was already added
for this node, then stream `state.output` (or the source type) into the
existing entry; on any other event update the existing entry's status,
output and error in place. -/
def updateNodeExecutionState (s : ProjState)
    (ev : String × NodeExecState) : ProjState :=
  let nodeId := ev.1
  let st := ev.2
  let sN : ProjState := { s with nodes := s.nodes.map (applyExecUpd nodeId st) }
  match sN.nodes.find? (fun n => n.id == nodeId) with
  | none => sN
  | some targetNode =>
    if targetNode.type == some "output" then
      let nodeLabel := jsOr targetNode.label "Response"
      if st.status == .running then
        let s3 :=
          if sN.addedPreviewIds.contains nodeId then sN
          else
            addPreviewEntry
              { sN with addedPreviewIds := sN.addedPreviewIds ++ [nodeId] }
              nodeId nodeLabel "output" .running st.sourceType
        if jsTruthy st.output then
          updatePreviewEntry s3 nodeId
            { status := some .running, output := some st.output }
        else if jsTruthy st.sourceType then
          updatePreviewEntry s3 nodeId
            { status := some .running, sourceType := some st.sourceType }
        else s3
      else
        updatePreviewEntry sN nodeId
          { status := some st.status,
            output := some st.output,
            error := some st.error }
    else sN

/-- Feed a sequence of `(nodeId, state)` events through the projector. -/
def processEvents (s : ProjState)
    (events : List (String × NodeExecState)) : ProjState :=
  events.foldl updateNodeExecutionState s

/-! ## Derived notions used by the statements -/

/-- One edge hop between node ids. -/
def edgeStep (edges : List JEdge) (a b : String) : Prop :=
  ∃ e ∈ edges, e.source = a ∧ e.target = b

/-- Reachability along the edge list. -/
def Reaches (edges : List JEdge) : String → String → Prop :=
  Relation.ReflTransGen (edgeStep edges)

/-- A node whose execution can never throw, whatever input and context it
receives (every non-`prompt` node, and a `prompt` node whose oracle
response is always `ok`). -/
def alwaysSucceeds (fetch : FetchOracle) (node : JNode) : Prop :=
  ∀ input context, ∃ o cnt,
    executeNode fetch node input context = (.ok o, cnt)

/-- A length-indexed path from `a` to `m` along resolvable edges all of
whose intermediate nodes (source endpoints) never throw and are not
`output` nodes — exactly the situation in which the engine is guaranteed
to walk from `a` to `m`. -/
inductive LivePath (fetch : FetchOracle) (nodes : List JNode)
    (edges : List JEdge) : Nat → JNode → JNode → Prop where
  | refl (n : JNode) : LivePath fetch nodes edges 0 n n
  | step {a b m : JNode} {k : Nat} (e : JEdge)
      (he : e ∈ edges) (hsrc : e.source = a.id)
      (ht : getTargetNode e nodes = some b)
      (hok : alwaysSucceeds fetch a)
      (hout : a.type ≠ some "output")
      (tail : LivePath fetch nodes edges k b m) :
      LivePath fetch nodes edges (k + 1) a m

/-- How many `running` events a run emitted for a node id: the number of
times the engine visited (began executing) that node. -/
def countRunning (evs : List (String × EvStatus)) (i : String) : Nat :=
  (evs.filter (fun ev => ev.1 == i && ev.2 == EvStatus.running)).length

/-- Resolved value of a terminal node as carried by an event: `some o`
exactly for a `success` event of an `output`-typed node. -/
def evOutput (nodes : List JNode) (ev : String × EvStatus) : Option String :=
  match nodes.find? (fun n => n.id == ev.1) with
  | some n =>
      if n.type == some "output" then
        match ev.2 with
        | .success o => some o
        | _ => none
      else none
  | none => none

/-- Follows the words of the spec (§4.1, §9): "the full mapping from
terminal-node id to its resolved value" — for each `output`-typed node,
the last value it resolved to during the run.  Stated from the spec, to be
compared with what `executeFlow` actually returns. -/
def specTerminalMapping (nodes : List JNode)
    (evs : List (String × EvStatus)) : List (String × String) :=
  nodes.filterMap (fun n =>
    if n.type == some "output" then
      ((evs.filterMap (fun ev =>
          if ev.1 == n.id then
            match ev.2 with
            | .success o => some o
            | _ => none
          else none)).getLast?).map (fun o => (n.id, o))
    else none)

/-! ## Engine lemmas -/

theorem runOutgoing_events_mono (fetch : FetchOracle) (nodes : List JNode)
    (edges : List JEdge) (fuel : Nat)
    (hnode : ∀ (node : JNode) (input : String) (s : RunState), ∃ t,
      (executeNodeAndContinue fetch nodes edges fuel node input s).events
        = s.events ++ t) :
    ∀ (l : List JEdge) (out : String) (s : RunState), ∃ t,
      (runOutgoing fetch nodes edges fuel l out s).events = s.events ++ t := by
  intro l
  induction l with
  | nil => intro out s; exact ⟨[], by simp [runOutgoing_nil]⟩
  | cons e rest ih =>
    intro out s
    rw [runOutgoing_cons]
    cases hfind : getTargetNode e nodes with
    | none =>
      simpa using ih out s
    | some b =>
      obtain ⟨t1, ht1⟩ := hnode b out s
      obtain ⟨t2, ht2⟩ := ih out (executeNodeAndContinue fetch nodes edges fuel b out s)
      exact ⟨t1 ++ t2, by simp [ht2, ht1]⟩

theorem run_error_branch {fetch : FetchOracle} {nodes : List JNode}
    {edges : List JEdge} {f : Nat} {node : JNode} {input : String}
    {s : RunState} {msg : String} {n : Nat}
    (hex : executeNode fetch node input s.context = (.error msg, n)) :
    executeNodeAndContinue fetch nodes edges (f + 1) node input s =
      { s with
        netCalls := s.netCalls + n,
        events := (s.events ++ [(node.id, .running)]) ++ [(node.id, .error msg)] } := by
  rw [executeNodeAndContinue]
  dsimp only
  rw [hex]

theorem run_ok_output {fetch : FetchOracle} {nodes : List JNode}
    {edges : List JEdge} {f : Nat} {node : JNode} {input : String}
    {s : RunState} {out : String} {n : Nat}
    (hex : executeNode fetch node input s.context = (.ok out, n))
    (hty : (node.type == some "output") = true) :
    executeNodeAndContinue fetch nodes edges (f + 1) node input s =
      { s with
        netCalls := s.netCalls + n,
        context := setKey node.id out s.context,
        events := (s.events ++ [(node.id, .running)]) ++ [(node.id, .success out)],
        outputs := s.outputs ++ [out] } := by
  rw [executeNodeAndContinue]
  dsimp only
  rw [hex]
  simp only [hty, if_true]

theorem run_ok_cont {fetch : FetchOracle} {nodes : List JNode}
    {edges : List JEdge} {f : Nat} {node : JNode} {input : String}
    {s : RunState} {out : String} {n : Nat}
    (hex : executeNode fetch node input s.context = (.ok out, n))
    (hty : (node.type == some "output") = false) :
    executeNodeAndContinue fetch nodes edges (f + 1) node input s =
      runOutgoing fetch nodes edges f (getOutgoingEdges node.id edges) out
        { s with
          netCalls := s.netCalls + n,
          context := setKey node.id out s.context,
          events := (s.events ++ [(node.id, .running)]) ++ [(node.id, .success out)] } := by
  rw [executeNodeAndContinue]
  dsimp only
  rw [hex]
  simp only [hty, Bool.false_eq_true, if_false]
  rfl

theorem run_events_mono (fetch : FetchOracle) (nodes : List JNode)
    (edges : List JEdge) :
    ∀ (fuel : Nat) (node : JNode) (input : String) (s : RunState), ∃ t,
      (executeNodeAndContinue fetch nodes edges fuel node input s).events
        = s.events ++ t := by
  intro fuel
  induction fuel with
  | zero => intro node input s; exact ⟨[], by simp [executeNodeAndContinue]⟩
  | succ f ih =>
    intro node input s
    rcases hex : executeNode fetch node input s.context with ⟨r, cnt⟩
    cases r with
    | error msg =>
      exact ⟨[(node.id, .running), (node.id, .error msg)],
        by rw [run_error_branch hex]; simp⟩
    | ok out =>
      cases hty : node.type == some "output" with
      | true =>
        exact ⟨[(node.id, .running), (node.id, .success out)],
          by rw [run_ok_output hex hty]; simp⟩
      | false =>
        obtain ⟨t2, ht2⟩ := runOutgoing_events_mono fetch nodes edges f ih
          (getOutgoingEdges node.id edges) out
          { s with
            netCalls := s.netCalls + cnt,
            context := setKey node.id out s.context,
            events := (s.events ++ [(node.id, .running)]) ++ [(node.id, .success out)] }
        refine ⟨[(node.id, .running), (node.id, .success out)] ++ t2, ?_⟩
        rw [run_ok_cont hex hty, ht2]
        simp

theorem run_events_mem {fetch : FetchOracle} {nodes : List JNode}
    {edges : List JEdge} {fuel : Nat} {node : JNode} {input : String}
    {s : RunState} {ev : String × EvStatus} (h : ev ∈ s.events) :
    ev ∈ (executeNodeAndContinue fetch nodes edges fuel node input s).events := by
  obtain ⟨t, ht⟩ := run_events_mono fetch nodes edges fuel node input s
  rw [ht]
  exact List.mem_append_left _ h

theorem runOutgoing_events_mem {fetch : FetchOracle} {nodes : List JNode}
    {edges : List JEdge} {fuel : Nat} {l : List JEdge} {out : String}
    {s : RunState} {ev : String × EvStatus} (h : ev ∈ s.events) :
    ev ∈ (runOutgoing fetch nodes edges fuel l out s).events := by
  obtain ⟨t, ht⟩ := runOutgoing_events_mono fetch nodes edges fuel
    (run_events_mono fetch nodes edges fuel) l out s
  rw [ht]
  exact List.mem_append_left _ h

theorem runOutgoing_carry {fetch : FetchOracle} {nodes : List JNode}
    {edges : List JEdge} {fuel : Nat} (P : String × EvStatus → Prop)
    {e : JEdge} {b : JNode} {out : String}
    (hb : getTargetNode e nodes = some b)
    (hhit : ∀ s0 : RunState, ∃ ev ∈
      (executeNodeAndContinue fetch nodes edges fuel b out s0).events, P ev) :
    ∀ (l : List JEdge) (s : RunState), e ∈ l →
      ∃ ev ∈ (runOutgoing fetch nodes edges fuel l out s).events, P ev := by
  intro l
  induction l with
  | nil => intro s h; cases h
  | cons e2 rest ih =>
    intro s hmem
    rw [runOutgoing_cons]
    rcases List.mem_cons.mp hmem with heq | hrest
    · subst heq
      simp only [hb]
      obtain ⟨ev, hev, hP⟩ := hhit s
      exact ⟨ev, runOutgoing_events_mem hev, hP⟩
    · exact ih _ hrest

theorem runOutgoing_reach {fetch : FetchOracle} {nodes : List JNode}
    {edges : List JEdge} {f : Nat} {a : String}
    (ihf : ∀ (node : JNode) (input : String) (s : RunState)
      (ev : String × EvStatus),
      ev ∈ (executeNodeAndContinue fetch nodes edges f node input s).events →
      ev ∈ s.events ∨ Reaches edges node.id ev.1) :
    ∀ (l : List JEdge) (out : String) (s : RunState) (ev : String × EvStatus),
      (∀ e ∈ l, e ∈ edges ∧ e.source = a) →
      ev ∈ (runOutgoing fetch nodes edges f l out s).events →
      ev ∈ s.events ∨ Reaches edges a ev.1 := by
  intro l
  induction l with
  | nil =>
    intro out s ev _ h
    left
    simpa [runOutgoing_nil] using h
  | cons e rest ih =>
    intro out s ev hl h
    rw [runOutgoing_cons] at h
    cases hfind : getTargetNode e nodes with
    | none =>
      simp only [hfind] at h
      exact ih out s ev (fun x hx => hl x (List.mem_cons_of_mem _ hx)) h
    | some b =>
      simp only [hfind] at h
      rcases ih out _ ev (fun x hx => hl x (List.mem_cons_of_mem _ hx)) h with
        h1 | h2
      · rcases ihf b out s ev h1 with h0 | hreach
        · left; exact h0
        · right
          have hmem : e ∈ e :: rest := List.mem_cons_self e rest
          have htgt : b.id = e.target := by
            have := List.find?_some hfind
            simpa [beq_iff_eq] using this
          exact Relation.ReflTransGen.head
            ⟨e, (hl e hmem).1, (hl e hmem).2, htgt.symm⟩ hreach
      · right; exact h2

theorem run_events_reach (fetch : FetchOracle) (nodes : List JNode)
    (edges : List JEdge) :
    ∀ (fuel : Nat) (node : JNode) (input : String) (s : RunState)
      (ev : String × EvStatus),
      ev ∈ (executeNodeAndContinue fetch nodes edges fuel node input s).events →
      ev ∈ s.events ∨ Reaches edges node.id ev.1 := by
  intro fuel
  induction fuel with
  | zero =>
    intro node input s ev h
    left
    simpa [executeNodeAndContinue] using h
  | succ f ih =>
    intro node input s ev h
    rcases hex : executeNode fetch node input s.context with ⟨r, cnt⟩
    cases r with
    | error msg =>
      rw [run_error_branch hex] at h
      simp only [List.mem_append, List.mem_singleton] at h
      rcases h with (h0 | h1) | h2
      · left; exact h0
      · right; rw [h1]; exact Relation.ReflTransGen.refl
      · right; rw [h2]; exact Relation.ReflTransGen.refl
    | ok out =>
      cases hty : node.type == some "output" with
      | true =>
        rw [run_ok_output hex hty] at h
        simp only [List.mem_append, List.mem_singleton] at h
        rcases h with (h0 | h1) | h2
        · left; exact h0
        · right; rw [h1]; exact Relation.ReflTransGen.refl
        · right; rw [h2]; exact Relation.ReflTransGen.refl
      | false =>
        rw [run_ok_cont hex hty] at h
        have hcond : ∀ e ∈ getOutgoingEdges node.id edges,
            e ∈ edges ∧ e.source = node.id := by
          intro e he
          have := List.mem_filter.mp he
          exact ⟨this.1, by simpa [beq_iff_eq] using this.2⟩
        rcases runOutgoing_reach ih (getOutgoingEdges node.id edges) out _ ev
            hcond h with h1 | h2
        · simp only [List.mem_append, List.mem_singleton] at h1
          rcases h1 with (h0 | hx) | hx
          · left; exact h0
          · right; rw [hx]; exact Relation.ReflTransGen.refl
          · right; rw [hx]; exact Relation.ReflTransGen.refl
        · right; exact h2


theorem beq_type_output_false {node : JNode} (hout : node.type ≠ some "output") :
    (node.type == some "output") = false := by
  cases h : node.type == some "output"
  · rfl
  · exact absurd (by simpa [beq_iff_eq] using h) hout

theorem mem_getOutgoingEdges {e : JEdge} {edges : List JEdge} {a : JNode}
    (he : e ∈ edges) (hsrc : e.source = a.id) :
    e ∈ getOutgoingEdges a.id edges :=
  List.mem_filter.mpr ⟨he, by simp [hsrc]⟩

theorem run_visits_live {fetch : FetchOracle} {nodes : List JNode}
    {edges : List JEdge} {k : Nat} {a m : JNode}
    (hp : LivePath fetch nodes edges k a m) :
    ∀ (fuel : Nat) (input : String) (s : RunState), k < fuel →
      (m.id, EvStatus.running) ∈
        (executeNodeAndContinue fetch nodes edges fuel a input s).events
      ∧ (alwaysSucceeds fetch m → ∃ o, (m.id, EvStatus.success o) ∈
          (executeNodeAndContinue fetch nodes edges fuel a input s).events) := by
  induction hp with
  | refl n =>
    intro fuel input s hk
    obtain ⟨f, rfl⟩ : ∃ f, fuel = f + 1 := ⟨fuel - 1, by omega⟩
    constructor
    · rcases hex : executeNode fetch n input s.context with ⟨r, cnt⟩
      cases r with
      | error msg => rw [run_error_branch hex]; simp
      | ok out =>
        cases hty : n.type == some "output" with
        | true => rw [run_ok_output hex hty]; simp
        | false =>
          rw [run_ok_cont hex hty]
          exact runOutgoing_events_mem (by simp)
    · intro hm
      obtain ⟨o, cnt, hex⟩ := hm input s.context
      refine ⟨o, ?_⟩
      cases hty : n.type == some "output" with
      | true => rw [run_ok_output hex hty]; simp
      | false =>
        rw [run_ok_cont hex hty]
        exact runOutgoing_events_mem (by simp)
  | step e he hsrc ht hok hout tail ihtail =>
    rename_i a b m k
    intro fuel input s hk
    obtain ⟨f, rfl⟩ : ∃ f, fuel = f + 1 := ⟨fuel - 1, by omega⟩
    obtain ⟨out, cnt, hex⟩ := hok input s.context
    have hty := beq_type_output_false hout
    rw [run_ok_cont hex hty]
    have hk2 : k < f := by omega
    have hedge := mem_getOutgoingEdges he hsrc
    constructor
    · obtain ⟨ev, hev, hP⟩ := runOutgoing_carry
        (fun ev => ev = (m.id, EvStatus.running)) ht
        (fun s0 => ⟨_, (ihtail f out s0 hk2).1, rfl⟩)
        (getOutgoingEdges a.id edges) _ hedge
      rw [hP] at hev
      exact hev
    · intro hm
      obtain ⟨ev, hev, hP⟩ := runOutgoing_carry
        (fun ev => ∃ o, ev = (m.id, EvStatus.success o)) ht
        (fun s0 => by
          obtain ⟨o, ho⟩ := (ihtail f out s0 hk2).2 hm
          exact ⟨_, ho, o, rfl⟩)
        (getOutgoingEdges a.id edges) _ hedge
      obtain ⟨o, rfl⟩ := hP
      exact ⟨o, hev⟩

/-- An error event can only come from the failing node itself: some node of
that id threw that very message from its own `executeNode`. -/
def errOrigin (fetch : FetchOracle) (nodes : List JNode) (i msg : String) :
    Prop :=
  ∃ nd ∈ nodes, nd.id = i ∧ ∃ inp ctx cnt,
    executeNode fetch nd inp ctx = (Except.error msg, cnt)

theorem runOutgoing_error_origin {fetch : FetchOracle} {nodes : List JNode}
    {edges : List JEdge} {f : Nat}
    (ihf : ∀ (node : JNode), node ∈ nodes →
      ∀ (input : String) (s : RunState) (i msg : String),
      (i, EvStatus.error msg) ∈
        (executeNodeAndContinue fetch nodes edges f node input s).events →
      (i, EvStatus.error msg) ∈ s.events ∨ errOrigin fetch nodes i msg) :
    ∀ (l : List JEdge) (out : String) (s : RunState) (i msg : String),
      (i, EvStatus.error msg) ∈
        (runOutgoing fetch nodes edges f l out s).events →
      (i, EvStatus.error msg) ∈ s.events ∨ errOrigin fetch nodes i msg := by
  intro l
  induction l with
  | nil =>
    intro out s i msg h
    left
    simpa [runOutgoing_nil] using h
  | cons e rest ih =>
    intro out s i msg h
    rw [runOutgoing_cons] at h
    cases hfind : getTargetNode e nodes with
    | none =>
      simp only [hfind] at h
      exact ih out s i msg h
    | some b =>
      simp only [hfind] at h
      rcases ih out _ i msg h with h1 | h2
      · exact ihf b (List.mem_of_find?_eq_some hfind) out s i msg h1
      · right; exact h2

theorem run_error_origin (fetch : FetchOracle) (nodes : List JNode)
    (edges : List JEdge) :
    ∀ (fuel : Nat) (node : JNode), node ∈ nodes →
      ∀ (input : String) (s : RunState) (i msg : String),
      (i, EvStatus.error msg) ∈
        (executeNodeAndContinue fetch nodes edges fuel node input s).events →
      (i, EvStatus.error msg) ∈ s.events ∨ errOrigin fetch nodes i msg := by
  intro fuel
  induction fuel with
  | zero =>
    intro node _ input s i msg h
    left
    simpa [executeNodeAndContinue] using h
  | succ f ih =>
    intro node hn input s i msg h
    rcases hex : executeNode fetch node input s.context with ⟨r, cnt⟩
    cases r with
    | error m0 =>
      rw [run_error_branch hex] at h
      simp only [List.mem_append, List.mem_singleton] at h
      rcases h with (h0 | h1) | h2
      · left; exact h0
      · simp at h1
      · right
        obtain ⟨hi, hm2⟩ : i = node.id ∧ msg = m0 := by simpa using h2
        exact ⟨node, hn, hi.symm, input, s.context, cnt, by rw [hm2]; exact hex⟩
    | ok out =>
      cases hty : node.type == some "output" with
      | true =>
        rw [run_ok_output hex hty] at h
        simp only [List.mem_append, List.mem_singleton] at h
        rcases h with (h0 | h1) | h2
        · left; exact h0
        · simp at h1
        · simp at h2
      | false =>
        rw [run_ok_cont hex hty] at h
        rcases runOutgoing_error_origin ih (getOutgoingEdges node.id edges)
            out _ i msg h with h1 | h2
        · simp only [List.mem_append, List.mem_singleton] at h1
          rcases h1 with (h0 | hx) | hx
          · left; exact h0
          · simp at hx
          · simp at hx
        · right; exact h2

theorem find?_self_of_nodup {nodes : List JNode} {node : JNode}
    (hnd : (nodes.map JNode.id).Nodup) (hmem : node ∈ nodes) :
    nodes.find? (fun n => n.id == node.id) = some node := by
  induction nodes with
  | nil => cases hmem
  | cons hd t ih =>
    cases hh : hd.id == node.id with
    | true =>
      have hhid : hd.id = node.id := by simpa [beq_iff_eq] using hh
      rcases List.mem_cons.mp hmem with heq | hmt
      · subst heq
        exact List.find?_cons_of_pos _ hh
      · exfalso
        have : node.id ∈ t.map JNode.id := List.mem_map_of_mem _ hmt
        rw [← hhid] at this
        exact (List.nodup_cons.mp (by simpa using hnd)).1 this
    | false =>
      have hmt : node ∈ t := by
        rcases List.mem_cons.mp hmem with heq | hmt
        · subst heq; simp at hh
        · exact hmt
      rw [List.find?_cons_of_neg _ (by simp [hh])]
      exact ih (List.nodup_cons.mp (by simpa using hnd)).2 hmt

theorem evOutput_running (nodes : List JNode) (i : String) :
    evOutput nodes (i, EvStatus.running) = none := by
  rw [evOutput]
  cases nodes.find? (fun n => n.id == i) with
  | none => rfl
  | some n => by_cases h : (n.type == some "output") = true <;> simp [h]

theorem evOutput_error (nodes : List JNode) (i msg : String) :
    evOutput nodes (i, EvStatus.error msg) = none := by
  rw [evOutput]
  cases nodes.find? (fun n => n.id == i) with
  | none => rfl
  | some n => by_cases h : (n.type == some "output") = true <;> simp [h]

theorem evOutput_success_self {nodes : List JNode} {node : JNode}
    (hnd : (nodes.map JNode.id).Nodup) (hmem : node ∈ nodes) (o : String) :
    evOutput nodes (node.id, EvStatus.success o) =
      if node.type == some "output" then some o else none := by
  rw [evOutput, find?_self_of_nodup hnd hmem]

/-- The outputs list is exactly the chronological record of `success`
events of `output`-typed nodes. -/
def OutputsInv (nodes : List JNode) (s : RunState) : Prop :=
  s.outputs = s.events.filterMap (evOutput nodes)

theorem runOutgoing_outputs_inv {fetch : FetchOracle} {nodes : List JNode}
    {edges : List JEdge} {f : Nat}
    (ihf : ∀ (node : JNode), node ∈ nodes →
      ∀ (input : String) (s : RunState), OutputsInv nodes s →
      OutputsInv nodes (executeNodeAndContinue fetch nodes edges f node input s)) :
    ∀ (l : List JEdge) (out : String) (s : RunState), OutputsInv nodes s →
      OutputsInv nodes (runOutgoing fetch nodes edges f l out s) := by
  intro l
  induction l with
  | nil =>
    intro out s h
    simpa [runOutgoing_nil] using h
  | cons e rest ih =>
    intro out s h
    rw [runOutgoing_cons]
    cases hfind : getTargetNode e nodes with
    | none => simp only [hfind]; exact ih out s h
    | some b =>
      simp only [hfind]
      exact ih out _ (ihf b (List.mem_of_find?_eq_some hfind) out s h)

theorem run_outputs_inv {fetch : FetchOracle} {nodes : List JNode}
    {edges : List JEdge} (hnd : (nodes.map JNode.id).Nodup) :
    ∀ (fuel : Nat) (node : JNode), node ∈ nodes →
      ∀ (input : String) (s : RunState), OutputsInv nodes s →
      OutputsInv nodes (executeNodeAndContinue fetch nodes edges fuel node input s) := by
  intro fuel
  induction fuel with
  | zero =>
    intro node _ input s h
    simpa [executeNodeAndContinue] using h
  | succ f ih =>
    intro node hn input s h
    rcases hex : executeNode fetch node input s.context with ⟨r, cnt⟩
    cases r with
    | error msg =>
      rw [OutputsInv, run_error_branch hex]
      simp only [List.filterMap_append]
      rw [OutputsInv] at h
      simp [h, evOutput_running, evOutput_error]
    | ok out =>
      cases hty : node.type == some "output" with
      | true =>
        rw [OutputsInv, run_ok_output hex hty]
        simp only [List.filterMap_append]
        rw [OutputsInv] at h
        simp [h, evOutput_running, evOutput_success_self hnd hn, hty]
      | false =>
        rw [run_ok_cont hex hty]
        apply runOutgoing_outputs_inv ih
        rw [OutputsInv]
        simp only [List.filterMap_append]
        rw [OutputsInv] at h
        simp [h, evOutput_running, evOutput_success_self hnd hn, hty]

/-! ## Concrete graphs and oracles used to instantiate the statements -/

/-- A node carrying no data payload. -/
def mkNode (i : String) (ty : Option String) : JNode :=
  { id := i, type := ty, promptData := none, modelData := none }

/-- A `prompt` node with the given prompt text. -/
def mkPromptNode (i p : String) : JNode :=
  { id := i, type := some "prompt", promptData := some p, modelData := none }

/-- An edge from `src` to `tgt`. -/
def mkEdge (src tgt : String) : JEdge :=
  { id := src ++ "-" ++ tgt, source := src, target := tgt }

/-- An oracle whose call always succeeds with output `"Z"`. -/
def okOracle : FetchOracle :=
  fun _ _ _ _ => { ok := true, error := none, output := "Z" }

/-- A diamond: `I → A`, `I → B`, `A → C`, `B → C`; `C` joins two branches. -/
def diamondNodes : List JNode :=
  [mkNode "I" (some "input"), mkNode "A" none, mkNode "B" none,
   mkNode "C" none]

/-- Edges of the diamond graph. -/
def diamondEdges : List JEdge :=
  [mkEdge "I" "A", mkEdge "I" "B", mkEdge "A" "C", mkEdge "B" "C"]

/-- A graph with two root nodes (neither has an incoming edge): `R` and the
`input`-typed `I`. -/
def twoRootNodes : List JNode :=
  [mkNode "R" none, mkNode "I" (some "input")]

/-! ## C1 -/

/-- C1, counterexample.  The claim says every node reachable from a root is
visited exactly once per run, with a join barrier at multi-input nodes,
and that every root starts a branch.  On the diamond graph the join node
`C` receives two `running` events in one run — it is executed once per
completed incoming edge, with no join barrier — and in the two-root graph
the root `R` is never visited at all, because `executeFlow` starts only
from the first `input`-typed node. -/
theorem C1_counterexample :
    countRunning ((executeFlow okOracle diamondNodes diamondEdges "hi" 9).2.events) "C" = 2
    ∧ countRunning ((executeFlow okOracle twoRootNodes [] "hi" 9).2.events) "R" = 0 := by
  constructor <;> rfl

/-- C1 (amended).  `executeFlow` starts only from the first `input`-typed
node, and there is no join barrier: a node is begun once per completed
incoming edge (so a join node with several live incoming branches is
visited several times, as `C1_counterexample` shows).  What does hold:
along any path of never-throwing, non-`output` nodes from the start node
(a `LivePath`), the end node is visited at least once (no missed
execution), and every emitted event belongs to a node reachable from the
start node along the edge list (no spurious execution). -/
theorem C1_amended_visits (fetch : FetchOracle) (nodes : List JNode)
    (edges : List JEdge) (userInput : String) (fuel k : Nat)
    (startN m : JNode)
    (hstart : findStartNode nodes = some startN)
    (hpath : LivePath fetch nodes edges k startN m)
    (hk : k < fuel) :
    (m.id, EvStatus.running) ∈
      (executeFlow fetch nodes edges userInput fuel).2.events
    ∧ ∀ ev ∈ (executeFlow fetch nodes edges userInput fuel).2.events,
        Reaches edges startN.id ev.1 := by
  constructor
  · have := (run_visits_live hpath fuel userInput (zeroState userInput) hk).1
    simpa [executeFlow, hstart] using this
  · intro ev hev
    have hev2 : ev ∈ (executeNodeAndContinue fetch nodes edges fuel startN
        userInput (zeroState userInput)).events := by
      simpa [executeFlow, hstart] using hev
    rcases run_events_reach fetch nodes edges fuel startN userInput
        (zeroState userInput) ev hev2 with h0 | h1
    · simp [zeroState] at h0
    · exact h1

/-- An `input` node used by the closed instances. -/
def w1I : JNode := mkNode "I" (some "input")

/-- An `output` node used by the closed instances. -/
def w1O : JNode := mkNode "O" (some "output")

/-- The two-node graph `I → O`. -/
def w1Nodes : List JNode := [w1I, w1O]

/-- The single edge of the graph `I → O`. -/
def w1Edges : List JEdge := [mkEdge "I" "O"]

/-- Closed instance of `C1_amended_visits` on the graph `I → O`. -/
theorem C1_amended_visits_witness :
    findStartNode w1Nodes = some w1I
    ∧ (1 : Nat) < 3
    ∧ (((w1O.id, EvStatus.running) ∈
        (executeFlow okOracle w1Nodes w1Edges "hi" 3).2.events)
      ∧ ∀ ev ∈ (executeFlow okOracle w1Nodes w1Edges "hi" 3).2.events,
          Reaches w1Edges w1I.id ev.1) :=
  ⟨rfl, by decide,
    C1_amended_visits okOracle w1Nodes w1Edges "hi" 3 1 w1I w1O
      rfl
      (LivePath.step (mkEdge "I" "O") (by decide) rfl rfl
        (fun i c => ⟨i, 0, rfl⟩) (by decide)
        (LivePath.refl w1O))
      (by decide)⟩

/-! ## C2 -/

/-- The two-terminal graph used against C2: `I → O2`, `I → P → O1`. -/
def c2Nodes : List JNode :=
  [mkNode "I" (some "input"), mkPromptNode "P" "p",
   mkNode "O1" (some "output"), mkNode "O2" (some "output")]

/-- Edges of the C2 graph, in the spawn order of the source. -/
def c2Edges : List JEdge :=
  [mkEdge "I" "O2", mkEdge "I" "P", mkEdge "P" "O1"]

/-- An oracle that always answers `"a"`. -/
def constAOracle : FetchOracle :=
  fun _ _ _ _ => { ok := true, error := none, output := "a" }

/-- C2, counterexample.  The claim says the run result contains one entry
per terminal node.  The C2 graph has two terminal nodes, yet two runs
whose terminal mappings differ (`O2` resolves to `"hello"` in one and
`"world"` in the other) both return the very same single scalar `"a"` —
the value of whichever terminal completed last.  The returned value hence
cannot contain an entry per terminal node. -/
theorem C2_counterexample :
    ((c2Nodes.filter (fun n => n.type == some "output")).length = 2)
    ∧ (executeFlow constAOracle c2Nodes c2Edges "hello" 9).1 = Except.ok "a"
    ∧ (executeFlow constAOracle c2Nodes c2Edges "world" 9).1 = Except.ok "a"
    ∧ specTerminalMapping c2Nodes
        (executeFlow constAOracle c2Nodes c2Edges "hello" 9).2.events
      ≠ specTerminalMapping c2Nodes
        (executeFlow constAOracle c2Nodes c2Edges "world" 9).2.events := by
  refine ⟨rfl, rfl, rfl, ?_⟩
  decide

/-- C2 (amended).  `executeFlow` returns a single scalar — the
chronologically last captured terminal output, or `""` when no terminal
resolved — not the mapping from terminal-node id to resolved value.  The
captured-outputs list is exactly the chronological record of `success`
events of `output`-typed nodes. -/
theorem C2_amended_last_output (fetch : FetchOracle) (nodes : List JNode)
    (edges : List JEdge) (userInput : String) (fuel : Nat) (startN : JNode)
    (hstart : findStartNode nodes = some startN)
    (hnd : (nodes.map JNode.id).Nodup) :
    (executeFlow fetch nodes edges userInput fuel).1 =
      Except.ok ((executeFlow fetch nodes edges userInput fuel).2.outputs.getLastD "")
    ∧ (executeFlow fetch nodes edges userInput fuel).2.outputs =
        ((executeFlow fetch nodes edges userInput fuel).2.events).filterMap
          (evOutput nodes) := by
  constructor
  · simp [executeFlow, hstart]
  · have hsm := List.mem_of_find?_eq_some hstart
    have h0 : OutputsInv nodes (zeroState userInput) := by
      simp [OutputsInv, zeroState]
    have := @run_outputs_inv fetch nodes edges hnd fuel startN hsm userInput
      (zeroState userInput) h0
    rw [OutputsInv] at this
    simpa [executeFlow, hstart] using this

/-- Closed instance of `C2_amended_last_output` on the C2 graph. -/
theorem C2_amended_last_output_witness :
    findStartNode c2Nodes = some (mkNode "I" (some "input"))
    ∧ (c2Nodes.map JNode.id).Nodup
    ∧ ((executeFlow constAOracle c2Nodes c2Edges "hello" 9).1 =
        Except.ok ((executeFlow constAOracle c2Nodes c2Edges "hello" 9).2.outputs.getLastD "")
      ∧ (executeFlow constAOracle c2Nodes c2Edges "hello" 9).2.outputs =
        ((executeFlow constAOracle c2Nodes c2Edges "hello" 9).2.events).filterMap
          (evOutput c2Nodes)) :=
  ⟨rfl, by decide,
    C2_amended_last_output constAOracle c2Nodes c2Edges "hello" 9
      (mkNode "I" (some "input")) rfl (by decide)⟩

/-! ## C3 -/

/-- C3.  Branch isolation: whenever a start node exists, `executeFlow`
returns normally (never rejects); every `error` event originates in the
failing node's own `executeNode` throw (errors are scoped to the failing
node, never attributed to another node); and any node at the end of a
live path from the start node — in particular a sibling branch sharing no
downstream join with a failing node — still reaches a `success` state,
whatever the oracle does elsewhere in the graph. -/
theorem C3_branch_isolation (fetch : FetchOracle) (nodes : List JNode)
    (edges : List JEdge) (userInput : String) (fuel k : Nat)
    (startN m : JNode)
    (hstart : findStartNode nodes = some startN)
    (hpath : LivePath fetch nodes edges k startN m)
    (hk : k < fuel)
    (hm : alwaysSucceeds fetch m) :
    (∃ r, (executeFlow fetch nodes edges userInput fuel).1 = Except.ok r)
    ∧ (∃ o, (m.id, EvStatus.success o) ∈
        (executeFlow fetch nodes edges userInput fuel).2.events)
    ∧ (∀ i msg, (i, EvStatus.error msg) ∈
        (executeFlow fetch nodes edges userInput fuel).2.events →
        errOrigin fetch nodes i msg) := by
  refine ⟨⟨(executeNodeAndContinue fetch nodes edges fuel startN userInput
      (zeroState userInput)).outputs.getLastD "",
      by simp [executeFlow, hstart]⟩, ?_, ?_⟩
  · have := (run_visits_live hpath fuel userInput (zeroState userInput) hk).2 hm
    simpa [executeFlow, hstart] using this
  · intro i msg hmem
    have hmem2 : (i, EvStatus.error msg) ∈ (executeNodeAndContinue fetch nodes
        edges fuel startN userInput (zeroState userInput)).events := by
      simpa [executeFlow, hstart] using hmem
    have hsm : startN ∈ nodes := List.mem_of_find?_eq_some hstart
    rcases run_error_origin fetch nodes edges fuel startN hsm userInput
        (zeroState userInput) i msg hmem2 with h0 | h1
    · simp [zeroState] at h0
    · exact h1

/-- The C3 scenario graph: `I → PA → OA` and `I → PB → OB`, two branches
sharing no downstream join. -/
def c3Nodes : List JNode :=
  [mkNode "I" (some "input"), mkPromptNode "PA" "a",
   mkNode "OA" (some "output"), mkPromptNode "PB" "b",
   mkNode "OB" (some "output")]

/-- Edges of the C3 scenario graph. -/
def c3Edges : List JEdge :=
  [mkEdge "I" "PA", mkEdge "PA" "OA", mkEdge "I" "PB", mkEdge "PB" "OB"]

/-- An oracle that fails exactly the prompt `"b"` (the `PB` branch) and
answers `"va"` everywhere else. -/
def failBOracle : FetchOracle :=
  fun p _ _ _ =>
    if p == "b" then { ok := false, error := some "boom", output := "" }
    else { ok := true, error := none, output := "va" }

/-- Closed instance of `C3_branch_isolation` on the scenario graph with the
`PB` branch failing: the untouched sibling terminal `OA` still succeeds. -/
theorem C3_branch_isolation_witness :
    findStartNode c3Nodes = some (mkNode "I" (some "input"))
    ∧ (2 : Nat) < 9
    ∧ alwaysSucceeds failBOracle (mkNode "OA" (some "output"))
    ∧ ((∃ r, (executeFlow failBOracle c3Nodes c3Edges "hi" 9).1 = Except.ok r)
      ∧ (∃ o, ((mkNode "OA" (some "output")).id, EvStatus.success o) ∈
          (executeFlow failBOracle c3Nodes c3Edges "hi" 9).2.events)
      ∧ (∀ i msg, (i, EvStatus.error msg) ∈
          (executeFlow failBOracle c3Nodes c3Edges "hi" 9).2.events →
          errOrigin failBOracle c3Nodes i msg)) :=
  ⟨rfl, by decide, fun i c => ⟨i, 0, rfl⟩,
    C3_branch_isolation failBOracle c3Nodes c3Edges "hi" 9 2
      (mkNode "I" (some "input")) (mkNode "OA" (some "output"))
      rfl
      (LivePath.step (mkEdge "I" "PA") (by decide) rfl rfl
        (fun i c => ⟨i, 0, rfl⟩) (by decide)
        (LivePath.step (mkEdge "PA" "OA") (by decide) rfl rfl
          (fun i c => ⟨"va", 1, rfl⟩) (by decide)
          (LivePath.refl (mkNode "OA" (some "output")))))
      (by decide)
      (fun i c => ⟨i, 0, rfl⟩)⟩

/-! ## C4 -/

/-- The C4 graph: `I → P → O` with one network-backed node. -/
def c4Nodes : List JNode :=
  [mkNode "I" (some "input"), mkPromptNode "P" "p", mkNode "O" (some "output")]

/-- Edges of the C4 graph. -/
def c4Edges : List JEdge := [mkEdge "I" "P", mkEdge "P" "O"]

/-- C4, evaluation at the failing input.  The claim requires that a run
whose cancellation token is tripped before any node starts issues zero
network calls.  `executeFlow` accepts no cancellation token at all — its
parameters are exactly (nodes, edges, userInput, state-change callback) —
and checks nothing before doing work at a node, so a run over a graph
with a `prompt` node always issues that node's network call: on the C4
graph every run issues exactly one network call, whatever the caller
wanted cancelled beforehand. -/
theorem C4_network_call_on_run :
    (executeFlow okOracle c4Nodes c4Edges "go" 9).2.netCalls = 1
    ∧ (executeFlow okOracle c4Nodes c4Edges "go" 9).1 = Except.ok "Z" := by
  constructor <;> rfl

/-! ## C5 -/

/-- C5, evaluation of the failure channel of the one network-backed
handler.  The claim requires the cancellation token to be attached to the
request and a machine-distinguishable "timeout" failure reason distinct
from "cancelled" and from remote failure.  The `prompt` handler passes no
abort signal and no deadline to `fetch`, and this theorem shows its only
failure reason is the remote-supplied `data.error` (or the generic
`"Failed to execute prompt"` when that is falsy): there is no timeout
reason and no cancellation reason anywhere in its error channel, and a
never-resolving call is awaited forever. -/
theorem C5_failure_reason_remote_only (fetch : FetchOracle) (node : JNode)
    (input : String) (ctx : List (String × String)) (msg : String) (cnt : Nat)
    (hty : node.type = some "prompt")
    (herr : executeNode fetch node input ctx = (Except.error msg, cnt)) :
    (fetch (node.promptData.getD "") (jsOr node.modelData "gpt-5.2-2025-12-11")
        input ctx).ok = false
    ∧ cnt = 1
    ∧ msg = jsOr (fetch (node.promptData.getD "")
        (jsOr node.modelData "gpt-5.2-2025-12-11") input ctx).error
        "Failed to execute prompt" := by
  rw [executeNode, hty] at herr
  cases hok : (fetch (node.promptData.getD "")
      (jsOr node.modelData "gpt-5.2-2025-12-11") input ctx).ok with
  | true => rw [if_pos hok] at herr; cases herr
  | false =>
    rw [if_neg (by simp [hok])] at herr
    refine ⟨rfl, ?_, ?_⟩
    · have := congrArg Prod.snd herr
      simpa using this.symm
    · have := congrArg Prod.fst herr
      simp only [Except.error.injEq] at this
      exact this.symm

/-- An oracle standing for a remote failure response. -/
def remoteFailOracle : FetchOracle :=
  fun _ _ _ _ => { ok := false, error := some "remote says no", output := "" }

/-- Closed instance of `C5_failure_reason_remote_only` at a concrete
`prompt` node and failing oracle. -/
theorem C5_failure_reason_remote_only_witness :
    (mkPromptNode "P" "p").type = some "prompt"
    ∧ executeNode remoteFailOracle (mkPromptNode "P" "p") "in" []
        = (Except.error "remote says no", 1)
    ∧ ((remoteFailOracle ((mkPromptNode "P" "p").promptData.getD "")
          (jsOr (mkPromptNode "P" "p").modelData "gpt-5.2-2025-12-11") "in" []).ok = false
      ∧ (1 : Nat) = 1
      ∧ "remote says no" = jsOr (remoteFailOracle
          ((mkPromptNode "P" "p").promptData.getD "")
          (jsOr (mkPromptNode "P" "p").modelData "gpt-5.2-2025-12-11") "in" []).error
          "Failed to execute prompt") :=
  ⟨rfl, rfl,
    C5_failure_reason_remote_only remoteFailOracle (mkPromptNode "P" "p")
      "in" [] "remote says no" 1 rfl rfl⟩

/-! ## C10 -/

/-- C10.  When no node has type `"input"`, `executeFlow` throws
`"No input node found"` before doing anything: no node is executed, no
state-change event is emitted, no context is created, no output captured,
no network call issued (the returned state is `emptyRunState`). -/
theorem C10_no_input_node (fetch : FetchOracle) (nodes : List JNode)
    (edges : List JEdge) (userInput : String) (fuel : Nat)
    (h : ∀ n ∈ nodes, n.type ≠ some "input") :
    executeFlow fetch nodes edges userInput fuel
      = (Except.error "No input node found", emptyRunState) := by
  have hfind : findStartNode nodes = none := by
    rw [findStartNode]
    apply List.find?_eq_none.mpr
    intro n hn
    simpa [beq_iff_eq] using h n hn
  simp [executeFlow, hfind]

/-- Closed instance of `C10_no_input_node`. -/
theorem C10_no_input_node_witness :
    (∀ n ∈ [mkNode "X" none, mkNode "O" (some "output")],
        n.type ≠ some "input")
    ∧ executeFlow okOracle [mkNode "X" none, mkNode "O" (some "output")]
        [] "hi" 9 = (Except.error "No input node found", emptyRunState) :=
  ⟨by decide,
    C10_no_input_node okOracle [mkNode "X" none, mkNode "O" (some "output")]
      [] "hi" 9 (by decide)⟩

/-! ## Registry lemmas -/

theorem regSet_any_true {nodeId : String} {p : Nat} {m : List (String × Nat)}
    (h : m.any (fun kv => kv.1 == nodeId) = true) :
    regSet nodeId p m =
      m.map (fun kv => if kv.1 == nodeId then (nodeId, p) else kv) := by
  rw [regSet, if_pos h]

theorem regSet_any_false {nodeId : String} {p : Nat} {m : List (String × Nat)}
    (h : m.any (fun kv => kv.1 == nodeId) = false) :
    regSet nodeId p m = m ++ [(nodeId, p)] := by
  rw [regSet, if_neg (by simp [h])]

theorem find?_map_regSet {nodeId : String} {p : Nat} :
    ∀ {m : List (String × Nat)},
      m.any (fun kv => kv.1 == nodeId) = true →
      (m.map (fun kv => if kv.1 == nodeId then (nodeId, p) else kv)).find?
          (fun kv => kv.1 == nodeId) = some (nodeId, p) := by
  intro m
  induction m with
  | nil => intro h; simp at h
  | cons hd t ih =>
    intro h
    cases hh : hd.1 == nodeId with
    | true =>
      simp only [List.map_cons, hh, if_true]
      rw [List.find?_cons_of_pos _ (by simp)]
    | false =>
      simp only [List.map_cons, hh, Bool.false_eq_true, if_false]
      rw [List.find?_cons_of_neg _ (by simp [hh])]
      apply ih
      simpa [List.any_cons, hh] using h

theorem regLookup_set_self (nodeId : String) (p : Nat)
    (m : List (String × Nat)) :
    regLookup nodeId (regSet nodeId p m) = some p := by
  cases hany : m.any (fun kv => kv.1 == nodeId) with
  | true =>
    rw [regLookup, regSet_any_true hany, find?_map_regSet hany]
    rfl
  | false =>
    rw [regLookup, regSet_any_false hany]
    have hall : ∀ kv ∈ m, ¬(kv.1 == nodeId) = true := by
      intro kv hkv hk
      have hc : m.any (fun kv => kv.1 == nodeId) = true :=
        List.any_eq_true.mpr ⟨kv, hkv, hk⟩
      simp [hc] at hany
    rw [List.find?_append, List.find?_eq_none.mpr hall]
    simp [List.find?]

theorem regLookup_erase_self (nodeId : String) (m : List (String × Nat)) :
    regLookup nodeId (regErase nodeId m) = none := by
  have hf : (regErase nodeId m).find? (fun kv => kv.1 == nodeId) = none :=
    List.find?_eq_none.mpr
      (fun kv hkv => by simpa using (List.mem_filter.mp hkv).2)
  rw [regLookup, hf]
  rfl

theorem resolveInput_no_waiter {nodeId Y : String} {s : RegState}
    (h : regLookup nodeId s.pending = none) :
    PendingInputRegistry.resolveInput nodeId Y s = s := by
  rw [PendingInputRegistry.resolveInput, h]

theorem mem_regSet_self (nodeId : String) (p : Nat)
    (m : List (String × Nat)) :
    (nodeId, p) ∈ regSet nodeId p m := by
  cases hany : m.any (fun kv => kv.1 == nodeId) with
  | true =>
    rw [regSet_any_true hany]
    obtain ⟨kv0, hkv0, hkey⟩ := List.any_eq_true.mp hany
    exact List.mem_map.mpr ⟨kv0, hkv0, by simp [hkey]⟩
  | false =>
    rw [regSet_any_false hany]
    simp

theorem mem_regSet_elim {kv : String × Nat} {nodeId : String} {p : Nat}
    {m : List (String × Nat)} (h : kv ∈ regSet nodeId p m) :
    kv = (nodeId, p) ∨ (kv ∈ m ∧ ¬kv.1 = nodeId) := by
  cases hany : m.any (fun kv => kv.1 == nodeId) with
  | true =>
    rw [regSet_any_true hany] at h
    obtain ⟨kv0, hkv0, heq⟩ := List.mem_map.mp h
    by_cases hk : (kv0.1 == nodeId) = true
    · left; rw [← heq]; simp [hk]
    · right
      rw [if_neg hk] at heq
      subst heq
      exact ⟨hkv0, by simpa using hk⟩
  | false =>
    rw [regSet_any_false hany] at h
    rcases List.mem_append.mp h with hm | hone
    · right
      refine ⟨hm, ?_⟩
      intro hk
      have : m.any (fun kv => kv.1 == nodeId) = true :=
        List.any_eq_true.mpr ⟨kv, hm, by simp [hk]⟩
      simp [this] at hany
    · left; simpa using hone

theorem countSettled_append (p : Nat) (a b : List (Nat × Option String)) :
    countSettled p (a ++ b) = countSettled p a + countSettled p b := by
  rw [countSettled, countSettled, countSettled, List.filter_append,
    List.length_append]

theorem countSettled_zero {p : Nat} {l : List (Nat × Option String)}
    (h : ∀ q ∈ l, ¬q.1 = p) : countSettled p l = 0 := by
  rw [countSettled]
  rw [List.filter_eq_nil_iff.mpr (fun q hq => by simpa using h q hq)]
  rfl

/-- A promise id that is below the counter, registered nowhere and settled
nowhere: no registry interaction can ever settle it again. -/
def Dead (p : Nat) (s : RegState) : Prop :=
  p < s.nextP ∧ (∀ kv ∈ s.pending, ¬kv.2 = p) ∧ countSettled p s.settled = 0

theorem dead_applyRegOp {p : Nat} {s : RegState} (hd : Dead p s)
    (op : RegOp) : Dead p (applyRegOp s op) := by
  obtain ⟨hlt, hpend, hset⟩ := hd
  cases op with
  | wait nodeId =>
    refine ⟨by simpa [applyRegOp, PendingInputRegistry.waitForInput] using
      Nat.lt_succ_of_lt hlt, ?_, ?_⟩
    · intro kv hkv
      rcases mem_regSet_elim hkv with heq | ⟨hm, _⟩
      · subst heq; intro hk; simp at hk; omega
      · exact hpend kv hm
    · simpa [applyRegOp, PendingInputRegistry.waitForInput] using hset
  | deliver nodeId data =>
    rw [applyRegOp, PendingInputRegistry.resolveInput]
    cases hfind : regLookup nodeId s.pending with
    | none => exact ⟨hlt, hpend, hset⟩
    | some q =>
      have hq : ¬q = p := by
        cases hf : s.pending.find? (fun kv => kv.1 == nodeId) with
        | none => rw [regLookup, hf] at hfind; cases hfind
        | some kv0 =>
          rw [regLookup, hf] at hfind
          have hkv0 : kv0 ∈ s.pending := List.mem_of_find?_eq_some hf
          have : kv0.2 = q := by simpa using hfind
          rw [← this]
          exact hpend kv0 hkv0
      refine ⟨hlt, ?_, ?_⟩
      · intro kv hkv
        exact hpend kv (List.mem_of_mem_filter hkv)
      · rw [countSettled_append, hset,
          countSettled_zero (fun x hx => by
            simp only [List.mem_singleton] at hx
            subst hx
            simpa using hq)]
  | clearAll =>
    refine ⟨hlt, by simp [PendingInputRegistry.clear, applyRegOp], ?_⟩
    rw [applyRegOp, PendingInputRegistry.clear]
    simp only
    rw [countSettled_append, hset,
      countSettled_zero (fun x hx => by
        obtain ⟨kv0, hkv0, heq⟩ := List.mem_map.mp hx
        rw [← heq]
        exact hpend kv0 hkv0)]

theorem dead_applyRegOps {p : Nat} {s : RegState} (hd : Dead p s) :
    ∀ ops : List RegOp, Dead p (applyRegOps ops s) := by
  intro ops
  induction ops generalizing s with
  | nil => simpa [applyRegOps] using hd
  | cons op rest ih =>
    rw [applyRegOps, List.foldl_cons]
    exact ih (dead_applyRegOp hd op)

/-! ## C6 -/

/-- C6.  From any well-formed registry state: `waitForInput(id)` followed
by `resolveInput(id, X)` settles the returned promise with `X`, exactly
once (it was settled zero times before, once after), and removes the
registration; `resolveInput` on an id with no outstanding waiter is a
no-op; and `clear()` while the wait is outstanding settles the waiter
with the `null` sentinel and empties the registry. -/
theorem C6_registry (s : RegState) (nodeId X : String) (hwf : RegWF s) :
    ((PendingInputRegistry.resolveInput nodeId X
        (PendingInputRegistry.waitForInput nodeId s).2).settled
      = (PendingInputRegistry.waitForInput nodeId s).2.settled
        ++ [((PendingInputRegistry.waitForInput nodeId s).1, some X)])
    ∧ countSettled (PendingInputRegistry.waitForInput nodeId s).1
        (PendingInputRegistry.waitForInput nodeId s).2.settled = 0
    ∧ countSettled (PendingInputRegistry.waitForInput nodeId s).1
        (PendingInputRegistry.resolveInput nodeId X
          (PendingInputRegistry.waitForInput nodeId s).2).settled = 1
    ∧ regLookup nodeId (PendingInputRegistry.resolveInput nodeId X
        (PendingInputRegistry.waitForInput nodeId s).2).pending = none
    ∧ (∀ (id2 Y : String) (s2 : RegState),
        regLookup id2 s2.pending = none →
        PendingInputRegistry.resolveInput id2 Y s2 = s2)
    ∧ (PendingInputRegistry.clear
        (PendingInputRegistry.waitForInput nodeId s).2).pending = []
    ∧ ((PendingInputRegistry.waitForInput nodeId s).1, (none : Option String))
        ∈ (PendingInputRegistry.clear
            (PendingInputRegistry.waitForInput nodeId s).2).settled := by
  have hcount0 : countSettled s.nextP s.settled = 0 :=
    countSettled_zero (fun q hq => by
      have := hwf.2 q hq
      omega)
  refine ⟨?_, ?_, ?_, ?_, ?_, ?_, ?_⟩
  · rw [PendingInputRegistry.resolveInput]
    simp only [PendingInputRegistry.waitForInput, regLookup_set_self]
  · simpa [PendingInputRegistry.waitForInput] using hcount0
  · rw [PendingInputRegistry.resolveInput]
    simp only [PendingInputRegistry.waitForInput, regLookup_set_self]
    rw [countSettled_append]
    simp only [PendingInputRegistry.waitForInput] at hcount0 ⊢
    rw [hcount0]
    simp [countSettled]
  · rw [PendingInputRegistry.resolveInput]
    simp only [PendingInputRegistry.waitForInput, regLookup_set_self]
    exact regLookup_erase_self nodeId _
  · exact fun id2 Y s2 h => resolveInput_no_waiter h
  · rfl
  · rw [PendingInputRegistry.clear]
    simp only [PendingInputRegistry.waitForInput]
    apply List.mem_append_right
    exact List.mem_map.mpr ⟨(nodeId, s.nextP), mem_regSet_self nodeId s.nextP s.pending, rfl⟩

/-- The empty registry, the state at module load and after `clear()`. -/
def regInit : RegState := { pending := [], nextP := 0, settled := [] }

theorem regInit_wf : RegWF regInit := by
  constructor <;> intro q hq <;> cases hq

/-- Closed instance of `C6_registry` at the empty registry. -/
theorem C6_registry_witness :
    RegWF regInit
    ∧ (((PendingInputRegistry.resolveInput "n" "v"
          (PendingInputRegistry.waitForInput "n" regInit).2).settled
        = (PendingInputRegistry.waitForInput "n" regInit).2.settled
          ++ [((PendingInputRegistry.waitForInput "n" regInit).1, some "v")])
      ∧ countSettled (PendingInputRegistry.waitForInput "n" regInit).1
          (PendingInputRegistry.waitForInput "n" regInit).2.settled = 0
      ∧ countSettled (PendingInputRegistry.waitForInput "n" regInit).1
          (PendingInputRegistry.resolveInput "n" "v"
            (PendingInputRegistry.waitForInput "n" regInit).2).settled = 1
      ∧ regLookup "n" (PendingInputRegistry.resolveInput "n" "v"
          (PendingInputRegistry.waitForInput "n" regInit).2).pending = none
      ∧ (∀ (id2 Y : String) (s2 : RegState),
          regLookup id2 s2.pending = none →
          PendingInputRegistry.resolveInput id2 Y s2 = s2)
      ∧ (PendingInputRegistry.clear
          (PendingInputRegistry.waitForInput "n" regInit).2).pending = []
      ∧ ((PendingInputRegistry.waitForInput "n" regInit).1, (none : Option String))
          ∈ (PendingInputRegistry.clear
              (PendingInputRegistry.waitForInput "n" regInit).2).settled) :=
  ⟨regInit_wf, C6_registry regInit "n" "v" regInit_wf⟩

/-! ## C9 -/

/-- C9.  A second `waitForInput` on the same id silently replaces the
registration: the two returned promises are distinct, the registry holds
only the second one, a subsequent `resolveInput` settles exactly the
second promise and `clear()` settles the second promise with `null`,
while the first promise is never settled at all — by those calls or by
any further sequence of registry interactions whatsoever. -/
theorem C9_wait_replaces (s : RegState) (nodeId X : String)
    (ops : List RegOp) (hwf : RegWF s) :
    ((PendingInputRegistry.waitForInput nodeId s).1
      ≠ (PendingInputRegistry.waitForInput nodeId
          (PendingInputRegistry.waitForInput nodeId s).2).1)
    ∧ regLookup nodeId (PendingInputRegistry.waitForInput nodeId
        (PendingInputRegistry.waitForInput nodeId s).2).2.pending
      = some (PendingInputRegistry.waitForInput nodeId
          (PendingInputRegistry.waitForInput nodeId s).2).1
    ∧ ((PendingInputRegistry.resolveInput nodeId X
          (PendingInputRegistry.waitForInput nodeId
            (PendingInputRegistry.waitForInput nodeId s).2).2).settled
        = (PendingInputRegistry.waitForInput nodeId
            (PendingInputRegistry.waitForInput nodeId s).2).2.settled
          ++ [((PendingInputRegistry.waitForInput nodeId
              (PendingInputRegistry.waitForInput nodeId s).2).1, some X)])
    ∧ ((PendingInputRegistry.waitForInput nodeId
          (PendingInputRegistry.waitForInput nodeId s).2).1,
        (none : Option String))
        ∈ (PendingInputRegistry.clear
            (PendingInputRegistry.waitForInput nodeId
              (PendingInputRegistry.waitForInput nodeId s).2).2).settled
    ∧ countSettled (PendingInputRegistry.waitForInput nodeId s).1
        (applyRegOps ops
          (PendingInputRegistry.waitForInput nodeId
            (PendingInputRegistry.waitForInput nodeId s).2).2).settled = 0 := by
  refine ⟨by simp [PendingInputRegistry.waitForInput], ?_, ?_, ?_, ?_⟩
  · simp only [PendingInputRegistry.waitForInput]
    exact regLookup_set_self nodeId (s.nextP + 1) _
  · rw [PendingInputRegistry.resolveInput]
    simp only [PendingInputRegistry.waitForInput, regLookup_set_self]
  · rw [PendingInputRegistry.clear]
    simp only [PendingInputRegistry.waitForInput]
    apply List.mem_append_right
    exact List.mem_map.mpr
      ⟨(nodeId, s.nextP + 1), mem_regSet_self nodeId (s.nextP + 1) _, rfl⟩
  · have hdead : Dead (PendingInputRegistry.waitForInput nodeId s).1
        (PendingInputRegistry.waitForInput nodeId
          (PendingInputRegistry.waitForInput nodeId s).2).2 := by
      refine ⟨by simp only [PendingInputRegistry.waitForInput]; omega, ?_, ?_⟩
      · intro kv hkv
        simp only [PendingInputRegistry.waitForInput] at hkv
        rcases mem_regSet_elim hkv with heq | ⟨hin, hk⟩
        · subst heq
          simp [PendingInputRegistry.waitForInput]
        · rcases mem_regSet_elim hin with heq2 | ⟨hin2, _⟩
          · subst heq2; exact absurd rfl hk
          · have := hwf.1 kv hin2
            simp only [PendingInputRegistry.waitForInput]
            omega
      · simp only [PendingInputRegistry.waitForInput]
        exact countSettled_zero (fun q hq => by
          have := hwf.2 q hq
          omega)
    exact (dead_applyRegOps hdead ops).2.2

/-- Closed instance of `C9_wait_replaces` at the empty registry, continuing
with a delivery and a `clear()`. -/
theorem C9_wait_replaces_witness :
    RegWF regInit
    ∧ countSettled (PendingInputRegistry.waitForInput "n" regInit).1
        (applyRegOps [RegOp.deliver "n" "x", RegOp.clearAll]
          (PendingInputRegistry.waitForInput "n"
            (PendingInputRegistry.waitForInput "n" regInit).2).2).settled = 0 :=
  ⟨regInit_wf,
    (C9_wait_replaces regInit "n" "x" [RegOp.deliver "n" "x", RegOp.clearAll]
      regInit_wf).2.2.2.2⟩

/-! ## Projector lemmas -/

/-- The state after only the node-data write of an event. -/
def nodesUpd (s : ProjState) (nodeId : String) (st : NodeExecState) :
    ProjState :=
  { s with nodes := s.nodes.map (applyExecUpd nodeId st) }

theorem applyExecUpd_id (nodeId : String) (st : NodeExecState) (n : PNode) :
    (applyExecUpd nodeId st n).id = n.id := by
  rw [applyExecUpd]
  split <;> rfl

theorem applyExecUpd_type (nodeId : String) (st : NodeExecState) (n : PNode) :
    (applyExecUpd nodeId st n).type = n.type := by
  rw [applyExecUpd]
  split <;> rfl

theorem find?_map_applyExecUpd (nodeId : String) (st : NodeExecState)
    (i : String) :
    ∀ l : List PNode,
      (l.map (applyExecUpd nodeId st)).find? (fun nd => nd.id == i)
        = Option.map (applyExecUpd nodeId st)
            (l.find? (fun nd => nd.id == i)) := by
  intro l
  induction l with
  | nil => rfl
  | cons hd t ih =>
    rw [List.map_cons]
    cases hh : hd.id == i with
    | true =>
      have h1 : (applyExecUpd nodeId st hd ::
          t.map (applyExecUpd nodeId st)).find? (fun nd => nd.id == i)
          = some (applyExecUpd nodeId st hd) :=
        List.find?_cons_of_pos _ (by simp [applyExecUpd_id, hh])
      have h2 : (hd :: t).find? (fun nd => nd.id == i) = some hd :=
        List.find?_cons_of_pos _ hh
      rw [h1, h2]
      rfl
    | false =>
      have h1 : (applyExecUpd nodeId st hd ::
          t.map (applyExecUpd nodeId st)).find? (fun nd => nd.id == i)
          = (t.map (applyExecUpd nodeId st)).find? (fun nd => nd.id == i) :=
        List.find?_cons_of_neg _ (by simp [applyExecUpd_id, hh])
      have h2 : (hd :: t).find? (fun nd => nd.id == i)
          = t.find? (fun nd => nd.id == i) :=
        List.find?_cons_of_neg _ (by simp [hh])
      rw [h1, h2, ih]

theorem updatePreview_ids (s : ProjState) (nodeId : String)
    (u : PreviewUpdates) :
    (updatePreviewEntry s nodeId u).previewEntries.map PreviewEntry.nodeId
      = s.previewEntries.map PreviewEntry.nodeId := by
  rw [updatePreviewEntry]
  simp only [List.map_map]
  apply List.map_congr_left
  intro e _
  by_cases h : e.nodeId = nodeId
  · simp [h, applyUpdates]
  · simp [h, applyUpdates]

theorem updatePreview_len (s : ProjState) (nodeId : String)
    (u : PreviewUpdates) :
    (updatePreviewEntry s nodeId u).previewEntries.length
      = s.previewEntries.length := by
  rw [updatePreviewEntry]
  simp

/-- Case analysis of one projector step: either the preview log's id list
and the dedupe set are both unchanged, or the event was a `running` event
for a fresh `output`-typed node and both gain exactly the id `n` at the
end. -/
theorem step_ids_cases (s : ProjState) (n : String) (st : NodeExecState) :
    ((updateNodeExecutionState s (n, st)).previewEntries.map PreviewEntry.nodeId
        = s.previewEntries.map PreviewEntry.nodeId
      ∧ (updateNodeExecutionState s (n, st)).addedPreviewIds
        = s.addedPreviewIds)
    ∨ ((updateNodeExecutionState s (n, st)).previewEntries.map PreviewEntry.nodeId
        = s.previewEntries.map PreviewEntry.nodeId ++ [n]
      ∧ (updateNodeExecutionState s (n, st)).addedPreviewIds
        = s.addedPreviewIds ++ [n]
      ∧ s.addedPreviewIds.contains n = false
      ∧ ∃ tn, (s.nodes.map (applyExecUpd n st)).find? (fun nd => nd.id == n)
            = some tn ∧ (tn.type == some "output") = true) := by
  simp only [updateNodeExecutionState]
  cases hfind : (s.nodes.map (applyExecUpd n st)).find? (fun nd => nd.id == n) with
  | none => left; exact ⟨rfl, rfl⟩
  | some tn =>
    dsimp only
    by_cases hty : (tn.type == some "output") = true
    · rw [if_pos hty]
      by_cases hst : (st.status == ExecutionStatus.running) = true
      · rw [if_pos hst]
        by_cases hcont : s.addedPreviewIds.contains n = true
        · rw [if_pos hcont]
          by_cases ho : jsTruthy st.output = true
          · rw [if_pos ho]
            left
            exact ⟨updatePreview_ids _ _ _, rfl⟩
          · rw [if_neg ho]
            by_cases hsrc : jsTruthy st.sourceType = true
            · rw [if_pos hsrc]
              left
              exact ⟨updatePreview_ids _ _ _, rfl⟩
            · rw [if_neg hsrc]
              left
              exact ⟨rfl, rfl⟩
        · rw [if_neg hcont]
          have hcf : s.addedPreviewIds.contains n = false := by
            revert hcont
            cases s.addedPreviewIds.contains n <;> simp
          right
          have hids : (addPreviewEntry
              { nodes := s.nodes.map (applyExecUpd n st),
                previewEntries := s.previewEntries,
                addedPreviewIds := s.addedPreviewIds ++ [n],
                now := s.now }
              n (jsOr tn.label "Response") "output" ExecutionStatus.running
              st.sourceType).previewEntries.map PreviewEntry.nodeId
              = s.previewEntries.map PreviewEntry.nodeId ++ [n] := by
            rw [addPreviewEntry]
            simp
          have hadd : (addPreviewEntry
              { nodes := s.nodes.map (applyExecUpd n st),
                previewEntries := s.previewEntries,
                addedPreviewIds := s.addedPreviewIds ++ [n],
                now := s.now }
              n (jsOr tn.label "Response") "output" ExecutionStatus.running
              st.sourceType).addedPreviewIds
              = s.addedPreviewIds ++ [n] := rfl
          by_cases ho : jsTruthy st.output = true
          · rw [if_pos ho]
            exact ⟨by rw [updatePreview_ids, hids], hadd, hcf, tn, rfl, hty⟩
          · rw [if_neg ho]
            by_cases hsrc : jsTruthy st.sourceType = true
            · rw [if_pos hsrc]
              exact ⟨by rw [updatePreview_ids, hids], hadd, hcf, tn, rfl, hty⟩
            · rw [if_neg hsrc]
              exact ⟨hids, hadd, hcf, tn, rfl, hty⟩
      · rw [if_neg hst]
        left
        exact ⟨updatePreview_ids _ _ _, rfl⟩
    · rw [if_neg hty]
      left
      exact ⟨rfl, rfl⟩


theorem contains_false_not_mem {l : List String} {a : String}
    (h : l.contains a = false) : a ∉ l := by
  simpa using h

theorem contains_true_of_mem {l : List String} {a : String}
    (h : a ∈ l) : l.contains a = true := by
  simpa using h

theorem contains_false_of_not_mem {l : List String} {a : String}
    (h : a ∉ l) : l.contains a = false := by
  simpa using h

theorem step_nodes (s : ProjState) (n : String) (st : NodeExecState) :
    (updateNodeExecutionState s (n, st)).nodes
      = s.nodes.map (applyExecUpd n st) := by
  simp only [updateNodeExecutionState]
  cases hfind : (s.nodes.map (applyExecUpd n st)).find? (fun nd => nd.id == n) with
  | none => rfl
  | some tn =>
    dsimp only
    by_cases hty : (tn.type == some "output") = true
    · rw [if_pos hty]
      by_cases hst : (st.status == ExecutionStatus.running) = true
      · rw [if_pos hst]
        by_cases hcont : s.addedPreviewIds.contains n = true
        · rw [if_pos hcont]
          by_cases ho : jsTruthy st.output = true
          · rw [if_pos ho]; all_goals rfl
          · rw [if_neg ho]
            by_cases hsrc : jsTruthy st.sourceType = true
            · rw [if_pos hsrc]; all_goals rfl
            · rw [if_neg hsrc]; all_goals rfl
        · rw [if_neg hcont]
          by_cases ho : jsTruthy st.output = true
          · rw [if_pos ho]; all_goals rfl
          · rw [if_neg ho]
            by_cases hsrc : jsTruthy st.sourceType = true
            · rw [if_pos hsrc]; all_goals rfl
            · rw [if_neg hsrc]; all_goals rfl
      · rw [if_neg hst]; all_goals rfl
    · rw [if_neg hty]; all_goals rfl

/-- The projector invariant: the dedupe set mirrors the log's id list, it
is duplicate-free, and every logged id resolves to an `output`-typed
node. -/
def ProjInv (s : ProjState) : Prop :=
  s.addedPreviewIds = s.previewEntries.map PreviewEntry.nodeId
  ∧ s.addedPreviewIds.Nodup
  ∧ ∀ i ∈ s.addedPreviewIds, ∃ tn,
      s.nodes.find? (fun nd => nd.id == i) = some tn
      ∧ tn.type = some "output"

theorem projInv_step (s : ProjState) (n : String) (st : NodeExecState)
    (h : ProjInv s) : ProjInv (updateNodeExecutionState s (n, st)) := by
  obtain ⟨hsync, hnd, hout⟩ := h
  have hnodes := step_nodes s n st
  have htransfer : ∀ i ∈ s.addedPreviewIds, ∃ tn,
      (updateNodeExecutionState s (n, st)).nodes.find?
        (fun nd => nd.id == i) = some tn ∧ tn.type = some "output" := by
    intro i hi
    obtain ⟨tn, hf, hta⟩ := hout i hi
    refine ⟨applyExecUpd n st tn, ?_, by rw [applyExecUpd_type]; exact hta⟩
    rw [hnodes, find?_map_applyExecUpd, hf]
    rfl
  rcases step_ids_cases s n st with ⟨hids, hadd⟩ |
    ⟨hids, hadd, hcf, tn, hfind, hty⟩
  · refine ⟨by rw [hadd, hids]; all_goals exact hsync,
      by rw [hadd]; all_goals exact hnd, ?_⟩
    intro i hi
    rw [hadd] at hi
    exact htransfer i hi
  · have hnmem : n ∉ s.addedPreviewIds := contains_false_not_mem hcf
    refine ⟨by rw [hadd, hids]; all_goals rw [hsync], ?_, ?_⟩
    · rw [hadd]
      refine List.Nodup.append hnd (List.nodup_singleton n) ?_
      intro a ha hb
      simp only [List.mem_singleton] at hb
      subst hb
      exact hnmem ha
    · intro i hi
      rw [hadd] at hi
      rcases List.mem_append.mp hi with hiold | hin
      · exact htransfer i hiold
      · simp only [List.mem_singleton] at hin
        subst hin
        refine ⟨tn, ?_, by simpa using hty⟩
        rw [hnodes]
        exact hfind

theorem projInv_processEvents (s : ProjState)
    (events : List (String × NodeExecState)) (h : ProjInv s) :
    ProjInv (processEvents s events) := by
  induction events generalizing s with
  | nil => simpa [processEvents] using h
  | cons ev rest ih =>
    rw [processEvents, List.foldl_cons]
    exact ih _ (projInv_step s ev.1 ev.2 h)

theorem projInv_init (nodes0 : List PNode) : ProjInv (initProj nodes0) := by
  refine ⟨rfl, List.nodup_nil, ?_⟩
  intro i hi
  cases hi

/-- Helper for the streaming-update shape: merging the running-output
updates into an entry changes exactly its status and output. -/
theorem applyUpdates_running_output (e : PreviewEntry) (o : Option String) :
    applyUpdates e { status := some ExecutionStatus.running, output := some o }
      = { e with status := ExecutionStatus.running, output := o } := by
  simp [applyUpdates]


theorem addPreview_len (s : ProjState) (nodeId nodeLabel nodeType : String)
    (status : ExecutionStatus) (sourceType : Option String) :
    (addPreviewEntry s nodeId nodeLabel nodeType status
        sourceType).previewEntries.length = s.previewEntries.length + 1 := by
  rw [addPreviewEntry]
  simp

/-! ## C7 -/

/-- C7.  After any event sequence from a fresh run state, the preview log
never holds two entries for one node id; a further event for a node that
already has an entry never appends a new one (its ids list is unchanged);
and a repeated `running` event carrying (grown) output replaces that
entry's output and status in place, leaving the log shape untouched. -/
theorem C7_one_entry_per_node (nodes0 : List PNode)
    (events : List (String × NodeExecState)) (n : String)
    (st : NodeExecState) :
    (((processEvents (initProj nodes0) events).previewEntries.map
        PreviewEntry.nodeId).Nodup)
    ∧ (n ∈ (processEvents (initProj nodes0) events).previewEntries.map
          PreviewEntry.nodeId →
        (updateNodeExecutionState (processEvents (initProj nodes0) events)
            (n, st)).previewEntries.map PreviewEntry.nodeId
          = (processEvents (initProj nodes0) events).previewEntries.map
              PreviewEntry.nodeId)
    ∧ (n ∈ (processEvents (initProj nodes0) events).previewEntries.map
          PreviewEntry.nodeId →
       st.status = ExecutionStatus.running →
       jsTruthy st.output = true →
        (updateNodeExecutionState (processEvents (initProj nodes0) events)
            (n, st)).previewEntries
          = (processEvents (initProj nodes0) events).previewEntries.map
              (fun e =>
                if e.nodeId == n then
                  { e with status := ExecutionStatus.running,
                           output := st.output }
                else e)) := by
  obtain ⟨hsync, hnd, hout⟩ :=
    projInv_processEvents (initProj nodes0) events (projInv_init nodes0)
  refine ⟨by rw [← hsync]; exact hnd, ?_, ?_⟩
  · intro hmem
    rcases step_ids_cases (processEvents (initProj nodes0) events) n st with
      ⟨hids, _⟩ | ⟨_, _, hcf, _⟩
    · exact hids
    · exact absurd (by rw [hsync]; exact hmem) (contains_false_not_mem hcf)
  · intro hmem hrun ho
    have hmemadd : n ∈ (processEvents (initProj nodes0) events).addedPreviewIds := by
      rw [hsync]; exact hmem
    obtain ⟨tn0, hf0, hta0⟩ := hout n hmemadd
    have hfindm : ((processEvents (initProj nodes0) events).nodes.map
        (applyExecUpd n st)).find? (fun nd => nd.id == n)
        = some (applyExecUpd n st tn0) := by
      rw [find?_map_applyExecUpd, hf0]
      rfl
    have hcont : (processEvents (initProj nodes0) events).addedPreviewIds.contains n
        = true := contains_true_of_mem hmemadd
    simp only [updateNodeExecutionState]
    rw [hfindm]
    dsimp only
    rw [if_pos (show ((applyExecUpd n st tn0).type == some "output") = true by
      rw [applyExecUpd_type]; simp [hta0])]
    rw [if_pos (show (st.status == ExecutionStatus.running) = true by
      simp [hrun])]
    rw [if_pos hcont, if_pos ho]
    rw [updatePreviewEntry]
    dsimp only
    apply List.map_congr_left
    intro e _
    by_cases he : (e.nodeId == n) = true
    · rw [if_pos he, if_pos he, applyUpdates_running_output]
    · rw [if_neg he, if_neg he]

/-- An `output`-typed projector node with the given id. -/
def pOutNode (i : String) : PNode :=
  { id := i, type := some "output", label := none,
    executionStatus := none, executionOutput := none, executionError := none }

/-- A bare `running` event payload. -/
def evRunning : NodeExecState :=
  { status := ExecutionStatus.running, output := none, error := none,
    sourceType := none }

/-- A `running` event payload streaming the given partial output. -/
def evRunningOut (o : String) : NodeExecState :=
  { status := ExecutionStatus.running, output := some o, error := none,
    sourceType := none }

/-- Closed instance of `C7_one_entry_per_node`: one output node, one
`running` event already processed, one further streaming event. -/
theorem C7_one_entry_per_node_witness :
    (("O" ∈ (processEvents (initProj [pOutNode "O"])
        [("O", evRunningOut "x")]).previewEntries.map PreviewEntry.nodeId)
      ∧ (evRunningOut "xy").status = ExecutionStatus.running
      ∧ jsTruthy (evRunningOut "xy").output = true)
    ∧ (((processEvents (initProj [pOutNode "O"])
          [("O", evRunningOut "x")]).previewEntries.map
            PreviewEntry.nodeId).Nodup
      ∧ (updateNodeExecutionState
            (processEvents (initProj [pOutNode "O"]) [("O", evRunningOut "x")])
            ("O", evRunningOut "xy")).previewEntries
          = (processEvents (initProj [pOutNode "O"])
              [("O", evRunningOut "x")]).previewEntries.map
              (fun e =>
                if e.nodeId == "O" then
                  { e with status := ExecutionStatus.running,
                           output := (evRunningOut "xy").output }
                else e)) :=
  ⟨⟨by decide, rfl, rfl⟩,
    (C7_one_entry_per_node [pOutNode "O"] [("O", evRunningOut "x")] "O"
      (evRunningOut "xy")).1,
    (C7_one_entry_per_node [pOutNode "O"] [("O", evRunningOut "x")] "O"
      (evRunningOut "xy")).2.2 (by decide) rfl rfl⟩

/-! ## C8 -/

/-- C8 (amended).  The preview log is not capacity-bounded: no step ever
removes an entry (the length never decreases), and a `running` event for
an `output`-typed node that is not yet in the log always appends exactly
one more entry, whatever the current length — so the length grows beyond
every fixed bound (see the counterexample theorem). -/
theorem C8_amended_unbounded (s : ProjState) (n : String)
    (st : NodeExecState) :
    (s.previewEntries.length
        ≤ (updateNodeExecutionState s (n, st)).previewEntries.length)
    ∧ (st.status = ExecutionStatus.running →
       s.addedPreviewIds.contains n = false →
       (∃ tn, s.nodes.find? (fun nd => nd.id == n) = some tn
          ∧ tn.type = some "output") →
       (updateNodeExecutionState s (n, st)).previewEntries.length
          = s.previewEntries.length + 1) := by
  constructor
  · rcases step_ids_cases s n st with ⟨hids, _⟩ | ⟨hids, _, _, _⟩
    · have := congrArg List.length hids
      simp only [List.length_map] at this
      omega
    · have := congrArg List.length hids
      simp only [List.length_map, List.length_append] at this
      omega
  · rintro hrun hcf ⟨tn, hf, hta⟩
    have hfindm : (s.nodes.map (applyExecUpd n st)).find?
        (fun nd => nd.id == n) = some (applyExecUpd n st tn) := by
      rw [find?_map_applyExecUpd, hf]
      rfl
    simp only [updateNodeExecutionState]
    rw [hfindm]
    dsimp only
    rw [if_pos (show ((applyExecUpd n st tn).type == some "output") = true by
      rw [applyExecUpd_type]; simp [hta])]
    rw [if_pos (show (st.status == ExecutionStatus.running) = true by
      simp [hrun])]
    rw [if_neg (show ¬(s.addedPreviewIds.contains n = true) from
      fun hc => absurd (contains_true_of_mem (by simpa using hc) ▸ hcf)
        (by simp [hc]))]
    by_cases ho : jsTruthy st.output = true
    · rw [if_pos ho, updatePreview_len, addPreview_len]
    · rw [if_neg ho]
      by_cases hsrc : jsTruthy st.sourceType = true
      · rw [if_pos hsrc, updatePreview_len, addPreview_len]
      · rw [if_neg hsrc, addPreview_len]

/-- Closed instance of `C8_amended_unbounded`: a fresh `running` event for
an output node grows the empty log to one entry. -/
theorem C8_amended_unbounded_witness :
    (evRunning.status = ExecutionStatus.running
      ∧ (initProj [pOutNode "O"]).addedPreviewIds.contains "O" = false
      ∧ (∃ tn, (initProj [pOutNode "O"]).nodes.find?
          (fun nd => nd.id == "O") = some tn ∧ tn.type = some "output"))
    ∧ ((initProj [pOutNode "O"]).previewEntries.length
        ≤ (updateNodeExecutionState (initProj [pOutNode "O"])
            ("O", evRunning)).previewEntries.length
      ∧ (updateNodeExecutionState (initProj [pOutNode "O"])
          ("O", evRunning)).previewEntries.length
        = (initProj [pOutNode "O"]).previewEntries.length + 1) :=
  ⟨⟨rfl, rfl, ⟨pOutNode "O", rfl, rfl⟩⟩,
    (C8_amended_unbounded (initProj [pOutNode "O"]) "O" evRunning).1,
    (C8_amended_unbounded (initProj [pOutNode "O"]) "O" evRunning).2
      rfl rfl ⟨pOutNode "O", rfl, rfl⟩⟩


theorem not_contains_true {l : List String} {a : String}
    (h : l.contains a = false) : ¬(l.contains a = true) := by
  intro hc
  rw [hc] at h
  exact Bool.noConfusion h

/-- Exact effect of a `running` event (no output, no source type) for a
fresh `output`-typed node: the id joins the dedupe set and the log grows
by exactly one entry. -/
theorem pstep_fresh_running (s : ProjState) (n : String) (st : NodeExecState)
    (hrun : st.status = ExecutionStatus.running)
    (ho : jsTruthy st.output = false)
    (hsrc : jsTruthy st.sourceType = false)
    (hcf : s.addedPreviewIds.contains n = false)
    (tn : PNode) (hf : s.nodes.find? (fun nd => nd.id == n) = some tn)
    (hta : tn.type = some "output") :
    (updateNodeExecutionState s (n, st)).addedPreviewIds
        = s.addedPreviewIds ++ [n]
    ∧ (updateNodeExecutionState s (n, st)).previewEntries.length
        = s.previewEntries.length + 1 := by
  have hfindm : (s.nodes.map (applyExecUpd n st)).find?
      (fun nd => nd.id == n) = some (applyExecUpd n st tn) := by
    rw [find?_map_applyExecUpd, hf]
    rfl
  simp only [updateNodeExecutionState]
  rw [hfindm]
  dsimp only
  rw [if_pos (show ((applyExecUpd n st tn).type == some "output") = true by
    rw [applyExecUpd_type]; simp [hta])]
  rw [if_pos (show (st.status == ExecutionStatus.running) = true by
    simp [hrun])]
  rw [if_neg (show ¬(jsTruthy st.output = true) by simp [ho])]
  rw [if_neg (show ¬(jsTruthy st.sourceType = true) by simp [hsrc])]
  rw [if_neg (not_contains_true hcf)]
  exact ⟨rfl, by rw [addPreview_len]⟩

theorem pairs_map_applyExecUpd (n : String) (st : NodeExecState)
    (l : List PNode) :
    (l.map (applyExecUpd n st)).map (fun nd => (nd.id, nd.type))
      = l.map (fun nd => (nd.id, nd.type)) := by
  rw [List.map_map]
  apply List.map_congr_left
  intro nd _
  simp [applyExecUpd_id, applyExecUpd_type]

theorem find?_of_pairs {l1 : List PNode} (i : String) :
    ∀ {l2 : List PNode},
      l1.map (fun nd => (nd.id, nd.type)) = l2.map (fun nd => (nd.id, nd.type)) →
      Option.map (fun nd : PNode => (nd.id, nd.type))
          (l1.find? (fun nd => nd.id == i))
        = Option.map (fun nd : PNode => (nd.id, nd.type))
            (l2.find? (fun nd => nd.id == i)) := by
  induction l1 with
  | nil =>
    intro l2 h
    cases l2 with
    | nil => rfl
    | cons hd2 t2 => simp at h
  | cons hd t ih =>
    intro l2 h
    cases l2 with
    | nil => simp at h
    | cons hd2 t2 =>
      simp only [List.map_cons, List.cons.injEq] at h
      obtain ⟨hhd, ht⟩ := h
      have hid : hd.id = hd2.id := congrArg Prod.fst hhd
      cases hh : hd.id == i with
      | true =>
        have h1 : (hd :: t).find? (fun nd => nd.id == i) = some hd :=
          List.find?_cons_of_pos _ hh
        have h2 : (hd2 :: t2).find? (fun nd => nd.id == i) = some hd2 :=
          List.find?_cons_of_pos _ (by rw [← hid]; exact hh)
        rw [h1, h2]
        simpa using hhd
      | false =>
        have h1 : (hd :: t).find? (fun nd => nd.id == i)
            = t.find? (fun nd => nd.id == i) :=
          List.find?_cons_of_neg _ (by simp [hh])
        have h2 : (hd2 :: t2).find? (fun nd => nd.id == i)
            = t2.find? (fun nd => nd.id == i) :=
          List.find?_cons_of_neg _ (by rw [← hid]; simp [hh])
        rw [h1, h2]
        exact ih ht

/-- Distinct node ids of unbounded number: `i` letters `a`. -/
def mkAid (i : Nat) : String := String.mk (List.replicate i 'a')

theorem mkAid_inj {i j : Nat} (h : mkAid i = mkAid j) : i = j := by
  have := congrArg (fun s : String => s.data.length) h
  simpa [mkAid] using this

/-- `K` distinct `output`-typed nodes. -/
def outNodesK (K : Nat) : List PNode :=
  (List.range K).map (fun i => pOutNode (mkAid i))

/-- One `running` event per node, in order. -/
def eventsK (j : Nat) : List (String × NodeExecState) :=
  (List.range j).map (fun i => (mkAid i, evRunning))

theorem outNodesK_find {K j : Nat} (hj : j < K) :
    ∃ tn, (outNodesK K).find? (fun nd => nd.id == mkAid j) = some tn
      ∧ tn.type = some "output" := by
  have hmem : pOutNode (mkAid j) ∈ outNodesK K :=
    List.mem_map.mpr ⟨j, List.mem_range.mpr hj, rfl⟩
  have hsome : ((outNodesK K).find? (fun nd => nd.id == mkAid j)).isSome :=
    List.find?_isSome.mpr ⟨pOutNode (mkAid j), hmem, by simp [pOutNode]⟩
  obtain ⟨tn, htn⟩ := Option.isSome_iff_exists.mp hsome
  have htm : tn ∈ outNodesK K := List.mem_of_find?_eq_some htn
  obtain ⟨i, _, heq⟩ := List.mem_map.mp htm
  exact ⟨tn, htn, by rw [← heq]; rfl⟩

theorem c8_family (K : Nat) :
    ∀ j, j ≤ K →
      (processEvents (initProj (outNodesK K)) (eventsK j)).addedPreviewIds
          = (List.range j).map mkAid
      ∧ (processEvents (initProj (outNodesK K)) (eventsK j)).previewEntries.length
          = j
      ∧ (processEvents (initProj (outNodesK K)) (eventsK j)).nodes.map
            (fun nd => (nd.id, nd.type))
          = (outNodesK K).map (fun nd => (nd.id, nd.type)) := by
  intro j
  induction j with
  | zero => intro _; exact ⟨rfl, rfl, rfl⟩
  | succ j ih =>
    intro hjK
    obtain ⟨hadd, hlen, hpairs⟩ := ih (by omega)
    have hev : eventsK (j + 1) = eventsK j ++ [(mkAid j, evRunning)] := by
      rw [eventsK, eventsK, List.range_succ, List.map_append]
      rfl
    have hstep : processEvents (initProj (outNodesK K)) (eventsK (j + 1))
        = updateNodeExecutionState
            (processEvents (initProj (outNodesK K)) (eventsK j))
            (mkAid j, evRunning) := by
      rw [hev, processEvents, processEvents, List.foldl_append]
      rfl
    have hfresh : (processEvents (initProj (outNodesK K))
        (eventsK j)).addedPreviewIds.contains (mkAid j) = false := by
      rw [hadd]
      apply contains_false_of_not_mem
      intro hmem
      obtain ⟨i, hi, heq⟩ := List.mem_map.mp hmem
      have hij : i < j := List.mem_range.mp hi
      have : i = j := mkAid_inj heq
      omega
    obtain ⟨tn0, hf0, hta0⟩ := outNodesK_find (show j < K by omega)
    have hpair := find?_of_pairs (mkAid j) hpairs
    rw [hf0] at hpair
    obtain ⟨tn1, hf1⟩ : ∃ tn1, (processEvents (initProj (outNodesK K))
        (eventsK j)).nodes.find? (fun nd => nd.id == mkAid j) = some tn1 := by
      cases hx : (processEvents (initProj (outNodesK K))
          (eventsK j)).nodes.find? (fun nd => nd.id == mkAid j) with
      | none => rw [hx] at hpair; cases hpair
      | some tn1 => exact ⟨tn1, rfl⟩
    have hta1 : tn1.type = some "output" := by
      rw [hf1] at hpair
      have := congrArg (fun o => Option.map Prod.snd o) hpair
      simp at this
      rw [this, hta0]
    obtain ⟨ha2, hl2⟩ := pstep_fresh_running
      (processEvents (initProj (outNodesK K)) (eventsK j))
      (mkAid j) evRunning rfl rfl rfl hfresh tn1 hf1 hta1
    refine ⟨?_, ?_, ?_⟩
    · rw [hstep, ha2, hadd, List.range_succ]
      simp
    · rw [hstep, hl2, hlen]
    · rw [hstep, step_nodes, pairs_map_applyExecUpd, hpairs]

/-- C8, counterexample.  The claim says the log has a fixed maximum number
of entries with oldest-first pruning.  No capacity exists: for every
proposed bound, a graph with that many distinct `output` nodes and one
`running` event each drives the log strictly past the bound (nothing is
ever pruned — see the monotonicity half of the amended theorem). -/
theorem C8_counterexample :
    ¬ ∃ cap : Nat, ∀ (nodes0 : List PNode)
        (events : List (String × NodeExecState)),
        (processEvents (initProj nodes0) events).previewEntries.length ≤ cap := by
  rintro ⟨cap, hcap⟩
  have hlen := (c8_family (cap + 1) (cap + 1) le_rfl).2.1
  have hbound := hcap (outNodesK (cap + 1)) (eventsK (cap + 1))
  omega

end Avy
